import Mathlib

/-! Version matching and score aggregation of the vulnerability scanner.

A shallow embedding of `internal/matcher/matcher.go`, of the queries and
statements of `internal/store/db.go` and of the record-building part of
`internal/collector/cve.go`.

Go strings are modelled by Lean strings (sequences of Unicode code points, that
is, valid UTF-8 text); `len` is the number of UTF-8 bytes.  Go's `int` and
`int64` are 64 bits wide.  A `float64` is an IEEE 754 binary64 number and its
operations round to nearest, ties to even, each operation being rounded on its
own (no fused multiply-add).
-/

namespace Matcher

/-! ## Strings -/

/-- Number of bytes of the UTF-8 encoding of a code point. -/
def runeLen (c : Char) : Nat :=
  if c.toNat < 0x80 then 1
  else if c.toNat < 0x800 then 2
  else if c.toNat < 0x10000 then 3
  else 4

/-- Go `len(s)`: the number of bytes of the string. -/
def byteLen : List Char → Nat
  | [] => 0
  | c :: cs => runeLen c + byteLen cs

/-- Go `unicode.IsSpace`: the code points with the Unicode White_Space property. -/
def isSpace (c : Char) : Bool :=
  let n := c.toNat
  (9 ≤ n && n ≤ 13) || n == 0x20 || n == 0x85 || n == 0xA0 || n == 0x1680 ||
  (0x2000 ≤ n && n ≤ 0x200A) || n == 0x2028 || n == 0x2029 || n == 0x202F ||
  n == 0x205F || n == 0x3000

/-- The class `\d` of Go's `regexp`: the ASCII digits. -/
def isDigit (c : Char) : Bool :=
  48 ≤ c.toNat && c.toNat ≤ 57

/-- Go `strings.TrimSpace` on the code points of a string: the leading and the
trailing white space are removed. -/
def trimSpace (s : List Char) : List Char :=
  ((s.dropWhile isSpace).reverse.dropWhile isSpace).reverse

/-! ## Digit runs and `strconv.Atoi` -/

/-- Whether the string starts with a digit. -/
def startsWithDigit : List Char → Bool
  | [] => false
  | d :: _ => isDigit d

/-- Puts the digit `c` in front of the runs of the rest of the string: it extends
the first of them when the rest starts with a digit, and is a run of its own
otherwise. -/
def pushDigit (c : Char) (joins : Bool) : List (List Char) → List (List Char)
  | [] => [[c]]
  | r :: rs => if joins then (c :: r) :: rs else [c] :: r :: rs

/-- The matches of `\d+` returned by `FindAllString(s, -1)`: the maximal runs of
digits, left to right. -/
def digitRuns : List Char → List (List Char)
  | [] => []
  | c :: cs =>
    if isDigit c then pushDigit c (startsWithDigit cs) (digitRuns cs)
    else digitRuns cs

/-- The largest value of a Go `int` (64 bits). -/
def maxInt : Nat := 2 ^ 63 - 1

/-- The mathematical value of a string of decimal digits. -/
def digitsValue (ds : List Char) : Nat :=
  ds.foldl (fun acc c => acc * 10 + (c.toNat - 48)) 0

/-- The value `strconv.Atoi` returns for a run of digits, the error being
dropped: the value of the digits, or the largest `int` when that does not fit. -/
def atoi (ds : List Char) : Nat :=
  if digitsValue ds ≤ maxInt then digitsValue ds else maxInt

/-- The function `tokenizeVersion`: all numeric pieces of the string. -/
def tokenizeVersion (s : List Char) : List Nat :=
  (digitRuns s).map atoi

/-! ## `cmpVersion` -/

/-- The loop of `cmpVersion`, started at index `i` with `n` iterations left:
`some 1` or `some (-1)` at the first index where the tokens differ, a missing
token counting as 0, and `none` when the loop ends without returning. -/
def cmpLoop (ta tb : List Nat) : Nat → Nat → Option Int
  | 0, _ => none
  | n + 1, i =>
    let xa := ta.getD i 0
    let xb := tb.getD i 0
    if xa > xb then some 1
    else if xa < xb then some (-1)
    else cmpLoop ta tb n (i + 1)

/-- The function `cmpVersion` on code-point lists.  The loop runs for the
indices below the larger of the two token counts. -/
def cmpVersionL (a b : List Char) : Int :=
  let aa := trimSpace a
  let bb := trimSpace b
  let ta := tokenizeVersion aa
  let tb := tokenizeVersion bb
  match cmpLoop ta tb (max ta.length tb.length) 0 with
  | some r => r
  | none =>
    if byteLen aa > byteLen bb then 1
    else if byteLen aa < byteLen bb then -1
    else 0

/-- The function `cmpVersion`. -/
def cmpVersion (a b : String) : Int :=
  cmpVersionL a.data b.data

/-- The function `equalVersion`. -/
def equalVersion (a b : String) : Bool :=
  cmpVersion a b == 0

/-! ## `float64` -/

/-- A value of Go's `float64` (IEEE 754 binary64): a finite number
`(-1)^neg * m * 2^e`, an infinity, or a NaN.  The operations below return finite
numbers with `m < 2^53` and `-1074 ≤ e ≤ 971`, where `2^52 ≤ m` unless
`e = -1074`. -/
inductive F64 where
  | fin (neg : Bool) (m : Nat) (e : Int)
  | inf (neg : Bool)
  | nan
deriving DecidableEq, Repr

namespace F64

/-- Number of binary digits of `m`, computed with `fuel` halvings. -/
def bitLenAux : Nat → Nat → Nat
  | 0, _ => 0
  | fuel + 1, m => if m = 0 then 0 else bitLenAux fuel (m / 2) + 1

/-- Number of binary digits of a natural number. -/
def bitLen (m : Nat) : Nat :=
  bitLenAux m m

/-- The mantissa of `m * 2^e` on the grid of spacing `2^e1`, rounded to nearest,
ties to even; `sticky` says that the exact magnitude lies strictly between
`m * 2^e` and `(m + 1) * 2^e`. -/
def roundMant (m : Nat) (e e1 : Int) (sticky : Bool) : Nat :=
  if e1 ≤ e then m * 2 ^ (e - e1).toNat
  else
    let s := (e1 - e).toNat
    let q := m / 2 ^ s
    let r := m % 2 ^ s
    let half := 2 ^ (s - 1)
    if r > half || (r == half && (sticky || q % 2 == 1)) then q + 1 else q

/-- Rounds the magnitude `m * 2^e` (plus, when `sticky`, a positive amount below
`2^e`) to the nearest binary64 number, ties to even; overflow gives an
infinity. -/
def round (neg : Bool) (m : Nat) (e : Int) (sticky : Bool) : F64 :=
  if m = 0 then fin neg 0 (-1074)
  else
    let e1 : Int := max (e + (bitLen m : Int) - 53) (-1074)
    let q := roundMant m e e1 sticky
    if q = 2 ^ 53 then (if e1 + 1 > 971 then inf neg else fin neg (2 ^ 52) (e1 + 1))
    else if e1 > 971 then inf neg
    else fin neg q e1

/-- The value `+0`. -/
def zero : F64 := fin false 0 (-1074)

/-- Go `x * y` on `float64`. -/
def mul : F64 → F64 → F64
  | nan, _ => nan
  | _, nan => nan
  | inf a, inf b => inf (xor a b)
  | inf a, fin b m _ => if m = 0 then nan else inf (xor a b)
  | fin a m _, inf b => if m = 0 then nan else inf (xor a b)
  | fin a m e, fin b n f => round (xor a b) (m * n) (e + f) false

/-- Go `x + y` on `float64`. -/
def add : F64 → F64 → F64
  | nan, _ => nan
  | _, nan => nan
  | inf a, inf b => if a = b then inf a else nan
  | inf a, fin _ _ _ => inf a
  | fin _ _ _, inf b => inf b
  | fin a m e, fin b n f =>
    let g := min e f
    let x : Int := (if a then -1 else 1) * ((m * 2 ^ (e - g).toNat : Nat) : Int)
    let y : Int := (if b then -1 else 1) * ((n * 2 ^ (f - g).toNat : Nat) : Int)
    let z := x + y
    if z = 0 then fin (a && b) 0 (-1074)
    else round (decide (z < 0)) z.natAbs g false

/-- Go `x / y` on `float64`. -/
def div : F64 → F64 → F64
  | nan, _ => nan
  | _, nan => nan
  | inf _, inf _ => nan
  | inf a, fin b _ _ => inf (xor a b)
  | fin a _ _, inf b => fin (xor a b) 0 (-1074)
  | fin a m e, fin b n f =>
    if n = 0 then (if m = 0 then nan else inf (xor a b))
    else
      let k := 55 + bitLen n
      round (xor a b) (m * 2 ^ k / n) (e - f - k) (decide (m * 2 ^ k % n ≠ 0))

/-- Go `x == y` on `float64`: the two zeros are equal, a NaN equals nothing. -/
def eq : F64 → F64 → Bool
  | fin a m e, fin b n f => (m == 0 && n == 0) || (a == b && m == n && e == f)
  | inf a, inf b => a == b
  | _, _ => false

/-- The `float64` value of the decimal literal `d / 10^k`: the quotient rounded
once. -/
def lit (d k : Nat) : F64 :=
  div (fin false d 0) (fin false (10 ^ k) 0)

end F64

/-! ## `calcWeighted` -/

/-- The weight `wCVE` of `calcWeighted`, the `float64` value of `0.6`. -/
def wCVE : F64 := F64.lit 6 1

/-- The weight `wCNVD` of `calcWeighted`, the `float64` value of `0.25`. -/
def wCNVD : F64 := F64.lit 25 2

/-- The weight `wALY` of `calcWeighted`, the `float64` value of `0.15`. -/
def wALY : F64 := F64.lit 15 2

/-- One `if x != nil` block of `calcWeighted`: the pair `(s, w)` after it. -/
def addScore (x : Option F64) (wt : F64) (sw : F64 × F64) : F64 × F64 :=
  match x with
  | some v => (F64.add sw.1 (F64.mul v wt), F64.add sw.2 wt)
  | none => sw

/-- The function `calcWeighted`; a nil pointer is `none`. -/
def calcWeighted (cve cnvd aliyun : Option F64) : Option F64 :=
  let sw := addScore aliyun wALY (addScore cnvd wCNVD (addScore cve wCVE (F64.zero, F64.zero)))
  if F64.eq sw.2 F64.zero then none
  else some (F64.div sw.1 sw.2)

/-! ## Records and the in-memory check of `Match` -/

/-- The type `store.VulnRecord`; `ScanDate` is a time in seconds. -/
structure VulnRecord where
  ID : Int
  Source : String
  Vendor : String
  Product : String
  VersionStart : String
  VersionEnd : String
  VersionNumber : String
  VulnID : String
  VulnName : String
  Description : String
  CVSS : Option F64
  CNVD : Option F64
  Aliyun : Option F64
  FinalScore : Option F64
  Severity : String
  PatchInfo : String
  ScanDate : Option Int
deriving DecidableEq, Repr

/-- The first operand of the range condition of `Match`: the lower bound. -/
def lowerOk (version : String) (v : VulnRecord) : Bool :=
  v.VersionStart == "" || decide (cmpVersion version v.VersionStart ≥ 0)

/-- The second operand of the range condition of `Match`: the upper bound. -/
def upperOk (version : String) (v : VulnRecord) : Bool :=
  v.VersionEnd == "" || decide (cmpVersion version v.VersionEnd ≤ 0)

/-- The body of the first loop of `Match`: whether the row is appended to `out`. -/
def accepts (version : String) (v : VulnRecord) : Bool :=
  if v.VersionNumber != "" then
    equalVersion version v.VersionNumber
  else
    lowerOk version v && upperOk version v

/-! ## `versionKey` -/

/-- Conversion of an integer to `int64`: the value modulo `2^64` in the signed
range. -/
def wrap64 (x : Int) : Int :=
  (x + 2 ^ 63) % 2 ^ 64 - 2 ^ 63

/-- The function `parseIntSafe`. -/
def parseIntSafe (nums : List (List Char)) (idx : Nat) : Int :=
  if idx ≥ nums.length then 0
  else (atoi (nums.getD idx []) : Int)

/-- The function `versionKey`; a nil pointer is `none`. -/
def versionKey (s : String) : Option Int :=
  if s = "" then none
  else
    let nums := digitRuns s.data
    if nums.length = 0 then none
    else
      let maj := parseIntSafe nums 0
      let min := parseIntSafe nums 1
      let patch := parseIntSafe nums 2
      some (wrap64 (wrap64 (wrap64 (maj * 1000000) + wrap64 (min * 1000)) + patch))

/-! ## Reference definitions, following the specification -/

namespace Spec

/-- The maximal runs of decimal digits of a string, left to right: the non-empty
pieces between the characters that are not digits. -/
def digitRuns (s : List Char) : List (List Char) :=
  (s.splitOnP (fun c => !isDigit c)).filter (fun r => !r.isEmpty)

/-- The sequence extended to `n` positions, a missing position being 0. -/
def pad (n : Nat) (xs : List Nat) : List Nat :=
  xs ++ List.replicate (n - xs.length) 0

/-- Position by position: 1 or -1 at the first position where the two sequences
differ, according to which value is larger, and 0 when no position differs. -/
def firstDiff : List Nat → List Nat → Int
  | x :: xs, y :: ys => if x > y then 1 else if x < y then -1 else firstDiff xs ys
  | _, _ => 0

/-- Comparison of two integer sequences position by position, a missing position
counting as 0. -/
def compareSeq (xs ys : List Nat) : Int :=
  firstDiff (pad (max xs.length ys.length) xs) (pad (max xs.length ys.length) ys)

/-- The comparison of version strings of the specification: the values `val` of
the digit runs of the trimmed strings are compared position by position, and a
tie is broken by the length of the trimmed strings. -/
def cmpVersion (val : List Char → Nat) (a b : String) : Int :=
  let aa := trimSpace a.data
  let bb := trimSpace b.data
  let c := compareSeq ((digitRuns aa).map val) ((digitRuns bb).map val)
  if c ≠ 0 then c
  else if byteLen aa > byteLen bb then 1
  else if byteLen aa < byteLen bb then -1
  else 0

/-- The present scores with their weights, in the order cve, cnvd, aliyun. -/
def presentScores (cve cnvd aliyun : Option F64) : List (F64 × F64) :=
  (cve.map (fun x => (x, wCVE))).toList ++ (cnvd.map (fun x => (x, wCNVD))).toList ++
    (aliyun.map (fun x => (x, wALY))).toList

/-- The `float64` sum of a list, added up from 0 in the order of the list. -/
def fsum (xs : List F64) : F64 :=
  xs.foldl F64.add F64.zero

/-- The aggregate of the specification: absent when no score is present, and
otherwise the sum of score times weight over the present scores divided by the
sum of the weights of the present scores. -/
def aggregate (cve cnvd aliyun : Option F64) : Option F64 :=
  let ps := presentScores cve cnvd aliyun
  if ps.isEmpty then none
  else some (F64.div (fsum (ps.map (fun p => F64.mul p.1 p.2))) (fsum (ps.map (fun p => p.2))))

/-- The integer values of the maximal digit runs of a string, left to right. -/
def values (s : String) : List Nat :=
  (digitRuns s.data).map digitsValue

/-- The key of the specification: major, minor and patch are the values of the
first three digit runs, a missing run counting as 0. -/
def versionKey (s : String) : Nat :=
  (values s).getD 0 0 * 1000000 + (values s).getD 1 0 * 1000 + (values s).getD 2 0

/-- The domain on which the key loses nothing: between one and three digit runs,
each with a value below 1000. -/
def lossless (s : String) : Prop :=
  1 ≤ (values s).length ∧ (values s).length ≤ 3 ∧ ∀ x ∈ values s, x < 1000

instance (s : String) : Decidable (lossless s) := by
  unfold lossless
  infer_instance

/-- A version field of a record that the key represents without loss against the
target: an empty field, or a field of the lossless domain that has the key of the
target only when it is the same string. -/
def wellKeyed (version field : String) : Prop :=
  field ≠ "" →
    lossless field ∧ (Matcher.versionKey field = Matcher.versionKey version → field = version)

instance (version field : String) : Decidable (wellKeyed version field) := by
  unfold wellKeyed
  infer_instance

end Spec

/-- The version string made of the given groups of digits separated by dots. -/
def dotted : List (List Char) → List Char
  | [] => []
  | g :: gs =>
    match gs with
    | [] => g
    | _ :: _ => g ++ '.' :: dotted gs

/-- A non-empty group of decimal digits whose value fits a Go `int`. -/
def isGroup (g : List Char) : Prop :=
  g ≠ [] ∧ (∀ c ∈ g, isDigit c = true) ∧ digitsValue g ≤ maxInt

instance (g : List Char) : Decidable (isGroup g) := by
  unfold isGroup
  infer_instance

/-- A record with the given bounds and exact version, used in examples. -/
def mkRecord (vs ve vn : String) : VulnRecord :=
  { ID := 0, Source := "cve", Vendor := "", Product := "", VersionStart := vs,
    VersionEnd := ve, VersionNumber := vn, VulnID := "", VulnName := "",
    Description := "", CVSS := none, CNVD := none, Aliyun := none, FinalScore := none,
    Severity := "", PatchInfo := "", ScanDate := none }

/-! ## `Match` -/

/-- The first loop of `Match`: the rows that pass the check are appended to
`out`, in the order of `rows`. -/
def filterLoop (version : String) : List VulnRecord → List VulnRecord → List VulnRecord
  | [], out => out
  | v :: rows, out =>
    if accepts version v then filterLoop version rows (out ++ [v])
    else filterLoop version rows out

/-- The body of the second loop of `Match`: the assignment to `out[i].FinalScore`. -/
def withFinalScore (v : VulnRecord) : VulnRecord :=
  { v with FinalScore := calcWeighted v.CVSS v.CNVD v.Aliyun }

/-- The two loops of `Match` on the rows it got from the store. -/
def matchRows (version : String) (rows : List VulnRecord) : List VulnRecord :=
  (filterLoop version rows []).map withFinalScore

/-- The two queries of `store.Store` that `Match` calls; each returns rows or an
error. -/
structure StoreAPI where
  QueryVulnsMatch : String → String → String → Except String (List VulnRecord)
  QueryVulnsByRange : String → String → String → Except String (List VulnRecord)

deriving instance DecidableEq for Except

/-- The method `Engine.Match`. -/
def Match (st : StoreAPI) (vendor product version : String) :
    Except String (List VulnRecord) :=
  match st.QueryVulnsMatch vendor product version with
  | .ok rows => .ok (matchRows version rows)
  | .error _ =>
    match st.QueryVulnsByRange vendor product version with
    | .ok rows => .ok (matchRows version rows)
    | .error err => .error err

/-! ## The table `vulnerability_scans`

The table is a list of rows in the order of their insertion.  The text columns
hold the strings they were given and are compared exactly; the score columns hold
the numbers they were given. -/

/-- A row of `vulnerability_scans`: the columns read back into a `VulnRecord`
and the three key columns, where `none` is SQL `NULL`. -/
structure Row where
  record : VulnRecord
  version_start_key : Option Int
  version_end_key : Option Int
  version_number_key : Option Int
deriving DecidableEq, Repr

/-- SQL `a = b` on nullable integers: unknown when either side is `NULL`. -/
def sqlEq (a b : Option Int) : Option Bool :=
  match a, b with
  | some x, some y => some (decide (x = y))
  | _, _ => none

/-- SQL `a <= b` on nullable integers: unknown when either side is `NULL`. -/
def sqlLe (a b : Option Int) : Option Bool :=
  match a, b with
  | some x, some y => some (decide (x ≤ y))
  | _, _ => none

/-- SQL `AND` in three-valued logic. -/
def sqlAnd : Option Bool → Option Bool → Option Bool
  | some false, _ => some false
  | _, some false => some false
  | some true, some true => some true
  | _, _ => none

/-- SQL `OR` in three-valued logic. -/
def sqlOr : Option Bool → Option Bool → Option Bool
  | some true, _ => some true
  | _, some true => some true
  | some false, some false => some false
  | _, _ => none

/-- SQL `a IS NULL`. -/
def sqlIsNull (a : Option Int) : Option Bool :=
  some a.isNone

/-- SQL `a IS NOT NULL`. -/
def sqlIsNotNull (a : Option Int) : Option Bool :=
  some a.isSome

/-- The version condition of the `WHERE` clause of `QueryVulnsMatch`, for the
bound parameter `vKey` and the three key columns of a row. -/
def keyCondition (vKey vsKey veKey vnKey : Option Int) : Option Bool :=
  sqlOr (sqlAnd (sqlIsNotNull vnKey) (sqlEq vnKey vKey))
    (sqlAnd (sqlOr (sqlIsNull vsKey) (sqlLe vsKey vKey))
      (sqlOr (sqlIsNull veKey) (sqlLe vKey veKey)))

/-- Whether `QueryVulnsMatch` selects the row: the `WHERE` clause is true. -/
def selectedByKey (vendor product version : String) (r : Row) : Bool :=
  r.record.Vendor == vendor && r.record.Product == product &&
    keyCondition (versionKey version) r.version_start_key r.version_end_key
      r.version_number_key == some true

/-- Whether `QueryVulnsByRange` selects the row. -/
def selectedByName (vendor product : String) (r : Row) : Bool :=
  r.record.Vendor == vendor && r.record.Product == product

/-- The rows `QueryVulnsMatch` returns when the query succeeds. -/
def queryVulnsMatch (db : List Row) (vendor product version : String) : List VulnRecord :=
  (db.filter (selectedByKey vendor product version)).map (fun r => r.record)

/-- The rows `QueryVulnsByRange` returns when the query succeeds. -/
def queryVulnsByRange (db : List Row) (vendor product : String) : List VulnRecord :=
  (db.filter (selectedByName vendor product)).map (fun r => r.record)

/-- The store over a database whose queries succeed. -/
def storeOf (db : List Row) : StoreAPI :=
  { QueryVulnsMatch := fun vendor product version =>
      .ok (queryVulnsMatch db vendor product version)
    QueryVulnsByRange := fun vendor product _ => .ok (queryVulnsByRange db vendor product) }

/-- The columns of the unique index `uniq_vuln` agree. -/
def sameUniqueKey (a b : VulnRecord) : Bool :=
  a.Source == b.Source && a.Vendor == b.Vendor && a.Product == b.Product &&
    a.VersionStart == b.VersionStart && a.VersionEnd == b.VersionEnd &&
    a.VersionNumber == b.VersionNumber && a.VulnID == b.VulnID

/-- The `ON DUPLICATE KEY UPDATE` part of `InsertVuln`: the columns of the row
that take the new values. -/
def updateRow (r : Row) (v : VulnRecord) : Row :=
  { r with
    record :=
      { r.record with
        VulnName := v.VulnName, Description := v.Description, CVSS := v.CVSS,
        CNVD := v.CNVD, Aliyun := v.Aliyun, FinalScore := v.FinalScore,
        Severity := v.Severity, PatchInfo := v.PatchInfo, ScanDate := v.ScanDate } }

/-- The row `InsertVuln` inserts for `v`, with the given `AUTO_INCREMENT` id. -/
def newRow (id : Int) (v : VulnRecord) : Row :=
  { record := { v with ID := id }
    version_start_key := versionKey v.VersionStart
    version_end_key := versionKey v.VersionEnd
    version_number_key := versionKey v.VersionNumber }

/-- The statement of `InsertVuln` on the rows from `rows` on, `id` being the id
of a new row. -/
def upsert (id : Int) (v : VulnRecord) : List Row → List Row
  | [] => [newRow id v]
  | r :: rows =>
    if sameUniqueKey r.record v then updateRow r v :: rows
    else r :: upsert id v rows

/-- The method `InsertVuln` when the statement succeeds. -/
def InsertVuln (db : List Row) (v : VulnRecord) : List Row :=
  upsert (db.length + 1) v db

/-- The type `store.TargetMeta`. -/
structure TargetMeta where
  Vendor : String
  Product : String
  DBType : String
  Addr : String
deriving DecidableEq, Repr

/-- The decimal digits of `n` put in front of `acc`, with `fuel` divisions. -/
def natDigits : Nat → Nat → List Char → List Char
  | 0, _, acc => acc
  | fuel + 1, n, acc =>
    if n < 10 then Char.ofNat (48 + n) :: acc
    else natDigits fuel (n / 10) (Char.ofNat (48 + n % 10) :: acc)

/-- The verb `%d` of `fmt` on an integer. -/
def formatInt (n : Int) : String :=
  if n < 0 then ⟨'-' :: natDigits (n.natAbs + 1) n.natAbs []⟩
  else ⟨natDigits (n.natAbs + 1) n.natAbs []⟩

/-- The loop of `SaveScanResult` over the matched records. -/
def saveLoop (version : String) (unixTime : Int) : List Row → List VulnRecord → List Row
  | db, [] => db
  | db, v :: vulns =>
    saveLoop version unixTime
      (InsertVuln db
        { v with Source := "scan", VersionNumber := version, ScanDate := some unixTime })
      vulns

/-- The method `SaveScanResult` when the statements succeed; `unixTime` is
`when` in seconds. -/
def SaveScanResult (db : List Row) (meta : TargetMeta) (version : String)
    (vulns : List VulnRecord) (unixTime : Int) : List Row :=
  if vulns.length = 0 then
    InsertVuln db
      { ID := 0, Source := "scan", Vendor := meta.Vendor, Product := meta.Product,
        VersionStart := "", VersionEnd := "", VersionNumber := version,
        VulnID := "SCAN-" ++ formatInt unixTime,
        VulnName := "No matching vulnerabilities", Description := "", CVSS := none,
        CNVD := none, Aliyun := none, FinalScore := none, Severity := "",
        PatchInfo := "", ScanDate := some unixTime }
  else saveLoop version unixTime db vulns

/-- The part of `handleScan` after the version is known: the answer of `Match`
and the table after `SaveScanResult`; when `Match` fails nothing is saved. -/
def scanOnce (db : List Row) (meta : TargetMeta) (version : String) (unixTime : Int) :
    Except String (List VulnRecord) × List Row :=
  match Match (storeOf db) meta.Vendor meta.Product version with
  | .ok vulns => (.ok vulns, SaveScanResult db meta version vulns unixTime)
  | .error e => (.error e, db)

/-! ## The CVE collector -/

namespace F64

/-- The finite number `(-1)^neg * m * 2^e` as a multiple of `2^g`, for `g ≤ e`. -/
def scaled (neg : Bool) (m : Nat) (e g : Int) : Int :=
  (if neg then -1 else 1) * ((m * 2 ^ (e - g).toNat : Nat) : Int)

/-- Go `x <= y` on `float64`: false when either side is a NaN. -/
def le : F64 → F64 → Bool
  | nan, _ => false
  | _, nan => false
  | inf a, inf b => a || !b
  | inf a, fin _ _ _ => a
  | fin _ _ _, inf b => !b
  | fin a m e, fin b n f => decide (scaled a m e (min e f) ≤ scaled b n f (min e f))

/-- Go `x >= y` on `float64`. -/
def ge (x y : F64) : Bool :=
  le y x

/-- The conversion of an integer constant to `float64`. -/
def ofNat (n : Nat) : F64 :=
  lit n 0

end F64

/-- The severity label `sev` that `Collect` derives from the base score. -/
def severityOf (score : Option F64) : String :=
  match score with
  | none => "UNKNOWN"
  | some s =>
    if F64.ge s (F64.ofNat 9) then "CRITICAL"
    else if F64.ge s (F64.ofNat 7) then "HIGH"
    else if F64.ge s (F64.ofNat 4) then "MEDIUM"
    else "LOW"

/-- Go `strings.ToLower`: every code point is mapped by `unicode.ToLower`, which
is the parameter `lower`. -/
def toLower (lower : Char → Char) (s : String) : String :=
  ⟨s.data.map lower⟩

/-- The lower-case mapping restricted to the ASCII letters. -/
def asciiLower (c : Char) : Char :=
  if 65 ≤ c.toNat && c.toNat ≤ 90 then Char.ofNat (c.toNat + 32) else c

/-- Whether `sub` is at the start of `s`. -/
def startsWith : List Char → List Char → Bool
  | _, [] => true
  | [], _ :: _ => false
  | c :: s, d :: sub => c == d && startsWith s sub

/-- Go `strings.Contains` on code points. -/
def containsSub : List Char → List Char → Bool
  | [], sub => startsWith [] sub
  | c :: s, sub => startsWith (c :: s) sub || containsSub s sub

/-- Go `strings.Split(c, ":")`. -/
def splitColon (c : String) : List String :=
  (c.data.splitOnP (fun x => x == ':')).map String.mk

/-- The function `parseCPE`: vendor, product and version. -/
def parseCPE (c : String) : String × String × String :=
  let parts := splitColon c
  if parts.length ≥ 5 then
    (parts.getD 3 "", parts.getD 4 "", if parts.length ≥ 6 then parts.getD 5 "" else "")
  else ("", "", "")

/-- The function `isDBProduct`. -/
def isDBProduct (lower : Char → Char) (vendor product : String) : Bool :=
  let v := toLower lower vendor
  let p := toLower lower product
  if v == "oracle" && (p == "mysql" || p == "database") then true
  else if v == "postgresql" && p == "postgresql" then true
  else if v == "microsoft" && (containsSub p.data "sql".data || p == "sql_server") then true
  else false

/-- The function `vendorNameCanonical`; `title` is `strings.Title`. -/
def vendorNameCanonical (lower : Char → Char) (title : String → String)
    (vendor _product : String) : String :=
  let v := toLower lower vendor
  if v == "postgresql" then "PostgreSQL"
  else if v == "microsoft" then "Microsoft"
  else if v == "oracle" then "Oracle"
  else title vendor

/-- The function `productNameCanonical`; `title` is `strings.Title`. -/
def productNameCanonical (lower : Char → Char) (title : String → String)
    (vendor product : String) : String :=
  let v := toLower lower vendor
  let p := toLower lower product
  if v == "postgresql" then "PostgreSQL"
  else if v == "microsoft" then "SQL Server"
  else if v == "oracle" then
    if p == "mysql" then "MySQL"
    else if p == "database" then "Database"
    else title product
  else title product

/-- The function `firstNonEmpty`. -/
def firstNonEmpty (a b : String) : String :=
  if a != "" then a else b

/-- The values `Collect` reads from one element of `cpeMatch`: a missing or
ill-typed member reads as the empty string or as false. -/
structure CPEMatch where
  criteria : String
  vulnerable : Bool
  versionStartIncluding : String
  versionStartExcluding : String
  versionEndIncluding : String
  versionEndExcluding : String
deriving DecidableEq, Repr

/-- The record `rec` that `Collect` builds for a match. -/
def rangeRecord (lower : Char → Char) (title : String → String) (cveID desc : String)
    (score : Option F64) (now : Int) (m : CPEMatch) : VulnRecord :=
  { ID := 0, Source := "CVE",
    Vendor := vendorNameCanonical lower title (parseCPE m.criteria).1 (parseCPE m.criteria).2.1,
    Product := productNameCanonical lower title (parseCPE m.criteria).1 (parseCPE m.criteria).2.1,
    VersionStart := firstNonEmpty m.versionStartIncluding m.versionStartExcluding,
    VersionEnd := firstNonEmpty m.versionEndIncluding m.versionEndExcluding,
    VersionNumber := "", VulnID := cveID, VulnName := cveID, Description := desc,
    CVSS := score, CNVD := none, Aliyun := none, FinalScore := none,
    Severity := severityOf score, PatchInfo := "", ScanDate := some now }

/-- The body of the loop of `Collect` over `cpeMatch`: the records passed to
`InsertVuln` for one match, in the order of the calls. -/
def recordsForMatch (lower : Char → Char) (title : String → String) (cveID desc : String)
    (score : Option F64) (now : Int) (m : CPEMatch) : List VulnRecord :=
  if !m.vulnerable || m.criteria == "" then []
  else if !isDBProduct lower (parseCPE m.criteria).1 (parseCPE m.criteria).2.1 then []
  else
    let r := rangeRecord lower title cveID desc score now m
    if (parseCPE m.criteria).2.2 != "" then
      [r, { r with VersionStart := "", VersionEnd := "",
                   VersionNumber := (parseCPE m.criteria).2.2 }]
    else [r]

/-- A match of the exact version 8.0.33 of MySQL, without a range. -/
def exactMatch : CPEMatch :=
  { criteria := "cpe:2.3:a:oracle:mysql:8.0.33:*:*:*:*:*:*:*", vulnerable := true,
    versionStartIncluding := "", versionStartExcluding := "", versionEndIncluding := "",
    versionEndExcluding := "" }

/-- A match of a range of PostgreSQL, the version of the CPE name being a wildcard. -/
def rangeMatch : CPEMatch :=
  { criteria := "cpe:2.3:a:postgresql:postgresql:*:*:*:*:*:*:*:*", vulnerable := true,
    versionStartIncluding := "14.0", versionStartExcluding := "",
    versionEndIncluding := "", versionEndExcluding := "14.10" }

namespace Spec

/-- The number a finite `float64` stands for; 0 for the infinities and NaN. -/
def value : F64 → ℚ
  | .fin neg m e => (if neg then -1 else 1) * (m : ℚ) * (2 : ℚ) ^ e
  | _ => 0

/-- A row as `InsertVuln` writes it, whose version fields the key represents
without loss against the target: the key columns are the keys of the version
fields, and each field is empty or in the lossless domain and collision-free. -/
def faithfulRow (version : String) (r : Row) : Prop :=
  r.version_start_key = Matcher.versionKey r.record.VersionStart ∧
  r.version_end_key = Matcher.versionKey r.record.VersionEnd ∧
  r.version_number_key = Matcher.versionKey r.record.VersionNumber ∧
  wellKeyed version r.record.VersionStart ∧ wellKeyed version r.record.VersionEnd ∧
  wellKeyed version r.record.VersionNumber

end Spec

/-- The record of the end-to-end scenario of the specification. -/
def pgRecord : VulnRecord :=
  { ID := 0, Source := "CVE", Vendor := "PostgreSQL", Product := "PostgreSQL",
    VersionStart := "14.0", VersionEnd := "14.9", VersionNumber := "", VulnID := "CVE-DEMO",
    VulnName := "CVE-DEMO", Description := "", CVSS := some (F64.lit 75 1), CNVD := none,
    Aliyun := none, FinalScore := none, Severity := severityOf (some (F64.lit 75 1)),
    PatchInfo := "", ScanDate := none }

/-- The target of a scan of a PostgreSQL server. -/
def pgMeta : TargetMeta :=
  { Vendor := "PostgreSQL", Product := "PostgreSQL", DBType := "postgres",
    Addr := "127.0.0.1:5432" }

/-- A store whose normalized-key query fails and whose full query works on `db`. -/
def fallbackStore (db : List Row) : StoreAPI :=
  { QueryVulnsMatch := fun _ _ _ => .error "fast path failed"
    QueryVulnsByRange := (storeOf db).QueryVulnsByRange }

/-- A store whose two queries fail. -/
def brokenStore : StoreAPI :=
  { QueryVulnsMatch := fun _ _ _ => .error "fast path failed"
    QueryVulnsByRange := fun _ _ _ => .error "full scan failed" }

end Matcher

namespace Matcher

/-! ## Digit runs and trimming -/

theorem isDigit_of_isSpace {c : Char} (h : isSpace c = true) : isDigit c = false := by
  simp only [isSpace, isDigit, Bool.or_eq_true, Bool.and_eq_true, decide_eq_true_eq,
    beq_iff_eq] at h
  simp only [isDigit, Bool.and_eq_false_iff, decide_eq_false_iff_not]
  omega

theorem digitRuns_cons_nondigit {c : Char} (cs : List Char) (h : isDigit c = false) :
    digitRuns (c :: cs) = digitRuns cs := by
  simp [digitRuns, h]

theorem digitRuns_dropWhile_isSpace (s : List Char) :
    digitRuns (s.dropWhile isSpace) = digitRuns s := by
  induction s with
  | nil => rfl
  | cons c cs ih =>
    by_cases hc : isSpace c = true
    · rw [List.dropWhile_cons_of_pos hc, ih, digitRuns_cons_nondigit cs (isDigit_of_isSpace hc)]
    · rw [List.dropWhile_cons_of_neg hc]

theorem startsWithDigit_concat_nondigit {c : Char} (h : isDigit c = false) (s : List Char) :
    startsWithDigit (s ++ [c]) = startsWithDigit s := by
  cases s with
  | nil => simp [startsWithDigit, h]
  | cons x xs => rfl

theorem digitRuns_concat_nondigit {c : Char} (h : isDigit c = false) (s : List Char) :
    digitRuns (s ++ [c]) = digitRuns s := by
  induction s with
  | nil => simp [digitRuns, h]
  | cons x xs ih =>
    have e1 := startsWithDigit_concat_nondigit h xs
    rw [List.cons_append]
    simp only [digitRuns, ih, e1]

theorem digitRuns_reverse_dropWhile_isSpace (s : List Char) :
    digitRuns ((s.reverse.dropWhile isSpace).reverse) = digitRuns s := by
  induction s using List.reverseRecOn with
  | nil => rfl
  | append_singleton xs c ih =>
    by_cases hc : isSpace c = true
    · rw [List.reverse_append, List.reverse_singleton, List.singleton_append,
        List.dropWhile_cons_of_pos hc, ih, digitRuns_concat_nondigit (isDigit_of_isSpace hc)]
    · rw [List.reverse_append, List.reverse_singleton, List.singleton_append,
        List.dropWhile_cons_of_neg hc, List.reverse_cons, List.reverse_reverse]

theorem digitRuns_trimSpace (s : List Char) : digitRuns (trimSpace s) = digitRuns s := by
  unfold trimSpace
  rw [digitRuns_reverse_dropWhile_isSpace, digitRuns_dropWhile_isSpace]

theorem tokenizeVersion_trimSpace (s : List Char) :
    tokenizeVersion (trimSpace s) = tokenizeVersion s := by
  simp [tokenizeVersion, digitRuns_trimSpace]

theorem startsWithDigit_iff_head (s : List Char) :
    startsWithDigit s = !((s.splitOnP (fun c => !isDigit c)).headD []).isEmpty := by
  cases s with
  | nil => simp [startsWithDigit, List.splitOnP_nil]
  | cons x xs =>
    rw [List.splitOnP_cons]
    by_cases hx : isDigit x = true
    · have hne := List.splitOnP_ne_nil (fun c => !isDigit c) xs
      cases hS : xs.splitOnP (fun c => !isDigit c) with
      | nil => exact absurd hS hne
      | cons h t => simp [startsWithDigit, hx]
    · simp [startsWithDigit, hx]

/-- The runs found by the scan are the maximal digit runs of the specification. -/
theorem digitRuns_eq_spec (s : List Char) : digitRuns s = Spec.digitRuns s := by
  induction s with
  | nil => simp [digitRuns, Spec.digitRuns, List.splitOnP_nil]
  | cons x xs ih =>
    have hne := List.splitOnP_ne_nil (fun c => !isDigit c) xs
    have hst := startsWithDigit_iff_head xs
    unfold Spec.digitRuns at ih ⊢
    rw [List.splitOnP_cons]
    cases hS : xs.splitOnP (fun c => !isDigit c) with
    | nil => exact absurd hS hne
    | cons h t =>
      rw [hS] at ih hst
      by_cases hx : isDigit x = true
      · cases h with
        | nil =>
          simp only [List.headD_cons, List.isEmpty_nil, Bool.not_true] at hst
          simp only [digitRuns, hx, hst, ih, if_true]
          simp [List.filter, pushDigit]
          cases List.filter (fun r => !r.isEmpty) t <;> simp [pushDigit]
        | cons y ys =>
          simp only [List.headD_cons, List.isEmpty_cons, Bool.not_false] at hst
          simp only [digitRuns, hx, hst, ih, if_true]
          simp [List.filter, pushDigit]
      · simp only [digitRuns, hx, ih]
        simp [List.filter, hx]

/-! ## The comparison loop -/

theorem cmpLoop_self (t : List Nat) (n i : Nat) : cmpLoop t t n i = none := by
  induction n generalizing i with
  | zero => rfl
  | succ n ih => simp [cmpLoop, ih]

theorem cmpLoop_cons (x y : Nat) (xs ys : List Nat) (n i : Nat) :
    cmpLoop (x :: xs) (y :: ys) n (i + 1) = cmpLoop xs ys n i := by
  induction n generalizing i with
  | zero => rfl
  | succ n ih => simp [cmpLoop, ih]

theorem cmpLoop_congr (ta tb ua ub : List Nat) (ha : ∀ i, ta.getD i 0 = ua.getD i 0)
    (hb : ∀ i, tb.getD i 0 = ub.getD i 0) (n i : Nat) :
    cmpLoop ta tb n i = cmpLoop ua ub n i := by
  induction n generalizing i with
  | zero => rfl
  | succ n ih => simp only [cmpLoop, ih, ha, hb]

theorem cmpLoop_firstDiff (xs ys : List Nat) (h : xs.length = ys.length) :
    cmpLoop xs ys xs.length 0 =
      (if Spec.firstDiff xs ys = 0 then none else some (Spec.firstDiff xs ys)) := by
  induction xs generalizing ys with
  | nil => cases ys <;> simp [cmpLoop, Spec.firstDiff]
  | cons x xs ih =>
    cases ys with
    | nil => simp at h
    | cons y ys =>
      simp only [List.length_cons, Nat.add_right_cancel_iff] at h
      simp only [List.length_cons, cmpLoop, List.getD_cons_zero, Spec.firstDiff]
      by_cases h1 : x > y
      · simp [h1]
      · by_cases h2 : x < y
        · simp [h1, h2]
        · simp only [h1, h2, if_false]
          rw [cmpLoop_cons, ih ys h]

theorem getD_pad (n : Nat) (xs : List Nat) (i : Nat) :
    (Spec.pad n xs).getD i 0 = xs.getD i 0 := by
  unfold Spec.pad
  by_cases h : i < xs.length
  · rw [List.getD_append _ _ _ _ h]
  · rw [List.getD_append_right _ _ _ _ (by omega)]
    rw [List.getD_eq_default xs 0 (by omega)]
    simp

theorem length_pad (n : Nat) (xs : List Nat) (h : xs.length ≤ n) :
    (Spec.pad n xs).length = n := by
  simp [Spec.pad]; omega

/-- The loop of `cmpVersion` computes the position-wise comparison of the
specification. -/
theorem cmpLoop_eq_compareSeq (ta tb : List Nat) :
    cmpLoop ta tb (max ta.length tb.length) 0 =
      (if Spec.compareSeq ta tb = 0 then none else some (Spec.compareSeq ta tb)) := by
  have hl1 := length_pad (max ta.length tb.length) ta (le_max_left _ _)
  have hl2 := length_pad (max ta.length tb.length) tb (le_max_right _ _)
  have h := cmpLoop_firstDiff (Spec.pad (max ta.length tb.length) ta)
    (Spec.pad (max ta.length tb.length) tb) (by rw [hl1, hl2])
  rw [hl1] at h
  unfold Spec.compareSeq
  rw [← h]
  exact cmpLoop_congr _ _ _ _ (fun i => (getD_pad _ _ i).symm) (fun i => (getD_pad _ _ i).symm) _ _

theorem firstDiff_range (xs ys : List Nat) :
    Spec.firstDiff xs ys = -1 ∨ Spec.firstDiff xs ys = 0 ∨ Spec.firstDiff xs ys = 1 := by
  induction xs generalizing ys with
  | nil => simp [Spec.firstDiff]
  | cons x xs ih =>
    cases ys with
    | nil => simp [Spec.firstDiff]
    | cons y ys =>
      simp only [Spec.firstDiff]
      split
      · simp
      · split
        · simp
        · exact ih ys

/-! ## The range check of `Match` -/

/-- C1: for a record with empty version_number the check of `Match` accepts the
record exactly when (version_start is empty or cmpVersion(target, version_start)
is at least 0) and (version_end is empty or cmpVersion(target, version_end) is at
most 0); a record whose three version fields are empty is accepted for every
target. -/
theorem accepts_range_iff (version : String) (v : VulnRecord)
    (hn : v.VersionNumber = "") :
    (accepts version v = true ↔
      (v.VersionStart = "" ∨ cmpVersion version v.VersionStart ≥ 0) ∧
      (v.VersionEnd = "" ∨ cmpVersion version v.VersionEnd ≤ 0)) ∧
    (v.VersionStart = "" → v.VersionEnd = "" → ∀ target : String, accepts target v = true) := by
  constructor
  · simp [accepts, lowerOk, upperOk, hn]
  · intro hs he target
    simp [accepts, lowerOk, upperOk, hn, hs, he]

/-- The range check at the target 14.5 and the range from 14.0 to 14.9. -/
theorem accepts_range_iff_witness :
    (mkRecord "14.0" "14.9" "").VersionNumber = "" ∧
    (accepts "14.5" (mkRecord "14.0" "14.9" "") = true ↔
      ((mkRecord "14.0" "14.9" "").VersionStart = "" ∨
        cmpVersion "14.5" (mkRecord "14.0" "14.9" "").VersionStart ≥ 0) ∧
      ((mkRecord "14.0" "14.9" "").VersionEnd = "" ∨
        cmpVersion "14.5" (mkRecord "14.0" "14.9" "").VersionEnd ≤ 0)) ∧
    ((mkRecord "14.0" "14.9" "").VersionStart = "" →
      (mkRecord "14.0" "14.9" "").VersionEnd = "" →
      ∀ target : String, accepts target (mkRecord "14.0" "14.9" "") = true) :=
  ⟨rfl, accepts_range_iff "14.5" (mkRecord "14.0" "14.9" "") rfl⟩

/-- C2: for a record with a non-empty version_number the check of `Match` is
equalVersion(target, version_number), and replacing version_start and
version_end by any other values does not change the outcome. -/
theorem accepts_exact_iff (version : String) (v : VulnRecord)
    (hn : v.VersionNumber ≠ "") :
    accepts version v = equalVersion version v.VersionNumber ∧
    ∀ vs ve : String,
      accepts version { v with VersionStart := vs, VersionEnd := ve } = accepts version v := by
  constructor
  · simp [accepts, hn]
  · intro vs ve
    simp [accepts, hn]

/-- The exact-version check at a record that also carries a range. -/
theorem accepts_exact_iff_witness :
    (mkRecord "5.0" "5.7" "8.0.33").VersionNumber ≠ "" ∧
    accepts "8.0.33" (mkRecord "5.0" "5.7" "8.0.33") =
      equalVersion "8.0.33" (mkRecord "5.0" "5.7" "8.0.33").VersionNumber ∧
    ∀ vs ve : String,
      accepts "8.0.33"
        { mkRecord "5.0" "5.7" "8.0.33" with VersionStart := vs, VersionEnd := ve } =
      accepts "8.0.33" (mkRecord "5.0" "5.7" "8.0.33") :=
  ⟨by decide, accepts_exact_iff "8.0.33" (mkRecord "5.0" "5.7" "8.0.33") (by decide)⟩

theorem cmpVersion_of_tokens_eq (a b : String)
    (h : tokenizeVersion a.data = tokenizeVersion b.data) :
    cmpVersion a b =
      if byteLen (trimSpace a.data) > byteLen (trimSpace b.data) then 1
      else if byteLen (trimSpace a.data) < byteLen (trimSpace b.data) then -1
      else 0 := by
  simp only [cmpVersion, cmpVersionL, tokenizeVersion_trimSpace, h, cmpLoop_self]

/-- C3, as the code has it: for a record with empty version_number the check is
the conjunction of the two bound conditions; when the numeric components of the
target equal those of a non-empty version_start, the lower-bound condition holds
exactly when the trimmed target has at least as many bytes as the trimmed bound,
and when they equal those of a non-empty version_end, the upper-bound condition
holds exactly when the trimmed target has at most as many bytes as the trimmed
bound; a target that is the bound itself satisfies the condition. -/
theorem bounds_inclusive (version : String) (v : VulnRecord)
    (hn : v.VersionNumber = "") :
    accepts version v = (lowerOk version v && upperOk version v) ∧
    (v.VersionStart ≠ "" →
      tokenizeVersion version.data = tokenizeVersion v.VersionStart.data →
      (lowerOk version v = true ↔
        byteLen (trimSpace v.VersionStart.data) ≤ byteLen (trimSpace version.data))) ∧
    (v.VersionEnd ≠ "" →
      tokenizeVersion version.data = tokenizeVersion v.VersionEnd.data →
      (upperOk version v = true ↔
        byteLen (trimSpace version.data) ≤ byteLen (trimSpace v.VersionEnd.data))) ∧
    (version = v.VersionStart → lowerOk version v = true) ∧
    (version = v.VersionEnd → upperOk version v = true) := by
  refine ⟨by simp [accepts, hn], ?_, ?_, ?_, ?_⟩
  · intro hs ht
    simp only [lowerOk, cmpVersion_of_tokens_eq version v.VersionStart ht, Bool.or_eq_true,
      beq_iff_eq, hs, false_or, decide_eq_true_eq]
    constructor
    · intro h
      by_contra hlt
      have hlt2 : byteLen (trimSpace version.data) < byteLen (trimSpace v.VersionStart.data) := by
        omega
      rw [if_neg (by omega), if_pos hlt2] at h
      omega
    · intro h
      split
      · omega
      · rw [if_neg (by omega)]
  · intro hs ht
    simp only [upperOk, cmpVersion_of_tokens_eq version v.VersionEnd ht, Bool.or_eq_true,
      beq_iff_eq, hs, false_or, decide_eq_true_eq]
    constructor
    · intro h
      by_contra hlt
      rw [if_pos (by omega)] at h
      omega
    · intro h
      rw [if_neg (by omega)]
      split <;> omega
  · intro he
    simp [lowerOk, ← he, cmpVersion_of_tokens_eq version version rfl]
  · intro he
    simp [upperOk, ← he, cmpVersion_of_tokens_eq version version rfl]

/-- The bound conditions at the target 14.0 and the range from 14.0 to 14.0. -/
theorem bounds_inclusive_witness :
    (mkRecord "14.0" "14.0" "").VersionNumber = "" ∧
    accepts "14.0" (mkRecord "14.0" "14.0" "") = true ∧
    lowerOk "14.0" (mkRecord "14.0" "14.0" "") = true ∧
    upperOk "14.0" (mkRecord "14.0" "14.0" "") = true :=
  have h := bounds_inclusive "14.0" (mkRecord "14.0" "14.0" "") rfl
  ⟨rfl, by rw [h.1, h.2.2.2.1 rfl, h.2.2.2.2 rfl]; rfl, h.2.2.2.1 rfl, h.2.2.2.2 rfl⟩

/-- C3 fails as stated: the target 8.0 has the numeric components of the lower
bound 8.00 and is rejected by the lower-bound condition, and the target 8.00 has
those of the upper bound 8.0 and is rejected by the upper-bound condition. -/
theorem bounds_inclusive_counterexample :
    (mkRecord "8.00" "" "").VersionNumber = "" ∧
    (mkRecord "8.00" "" "").VersionStart ≠ "" ∧
    tokenizeVersion "8.0".data = tokenizeVersion (mkRecord "8.00" "" "").VersionStart.data ∧
    lowerOk "8.0" (mkRecord "8.00" "" "") = false ∧
    accepts "8.0" (mkRecord "8.00" "" "") = false ∧
    (mkRecord "" "8.0" "").VersionEnd ≠ "" ∧
    tokenizeVersion "8.00".data = tokenizeVersion (mkRecord "" "8.0" "").VersionEnd.data ∧
    upperOk "8.00" (mkRecord "" "8.0" "") = false ∧
    accepts "8.00" (mkRecord "" "8.0" "") = false := by
  decide

/-! ## `cmpVersion` against the comparison of the specification -/

theorem compareSeq_range (xs ys : List Nat) :
    Spec.compareSeq xs ys = -1 ∨ Spec.compareSeq xs ys = 0 ∨ Spec.compareSeq xs ys = 1 :=
  firstDiff_range _ _

/-- The function `cmpVersion` is the comparison of the specification taken over
the values that `strconv.Atoi` yields. -/
theorem cmpVersion_eq_spec_atoi (a b : String) :
    cmpVersion a b = Spec.cmpVersion atoi a b := by
  simp only [cmpVersion, cmpVersionL, Spec.cmpVersion, tokenizeVersion, List.length_map,
    ← digitRuns_eq_spec]
  have h := cmpLoop_eq_compareSeq ((digitRuns (trimSpace a.data)).map atoi)
    ((digitRuns (trimSpace b.data)).map atoi)
  simp only [List.length_map] at h
  rw [h]
  by_cases hc : Spec.compareSeq ((digitRuns (trimSpace a.data)).map atoi)
      ((digitRuns (trimSpace b.data)).map atoi) = 0
  · simp [hc]
  · simp [hc]

theorem spec_cmpVersion_range (val : List Char → Nat) (a b : String) :
    Spec.cmpVersion val a b = -1 ∨ Spec.cmpVersion val a b = 0 ∨ Spec.cmpVersion val a b = 1 := by
  unfold Spec.cmpVersion
  simp only
  split
  · exact compareSeq_range _ _
  · split
    · simp
    · split <;> simp

theorem map_atoi_eq_digitsValue (rs : List (List Char))
    (h : ∀ r ∈ rs, digitsValue r ≤ maxInt) : rs.map atoi = rs.map digitsValue := by
  apply List.map_congr_left
  intro r hr
  simp [atoi, h r hr]

/-- C4, as the code has it: when every digit run of the two strings has a value
of at most 2^63 - 1, cmpVersion(a, b) is -1, 0 or 1 and equals the reference of
the specification: the values of the maximal digit runs of the trimmed strings
are compared position by position, a missing position counting as 0, the first
difference deciding, and a tie is broken by the byte length of the trimmed
strings.  The strings 8.0 and 8.00 both yield the sequence 8, 0 and their
comparison is decided by length. -/
theorem cmpVersion_eq_spec (a b : String)
    (ha : ∀ r ∈ Spec.digitRuns a.data, digitsValue r ≤ maxInt)
    (hb : ∀ r ∈ Spec.digitRuns b.data, digitsValue r ≤ maxInt) :
    (cmpVersion a b = -1 ∨ cmpVersion a b = 0 ∨ cmpVersion a b = 1) ∧
    cmpVersion a b = Spec.cmpVersion digitsValue a b ∧
    (Spec.digitRuns "8.0".data).map digitsValue = [8, 0] ∧
    (Spec.digitRuns "8.00".data).map digitsValue = [8, 0] ∧
    cmpVersion "8.0" "8.00" = -1 := by
  have key : cmpVersion a b = Spec.cmpVersion digitsValue a b := by
    rw [cmpVersion_eq_spec_atoi]
    simp only [Spec.cmpVersion, ← digitRuns_eq_spec, digitRuns_trimSpace] at ha hb ⊢
    rw [map_atoi_eq_digitsValue _ (by simpa [← digitRuns_eq_spec] using ha),
      map_atoi_eq_digitsValue _ (by simpa [← digitRuns_eq_spec] using hb)]
  refine ⟨?_, key, by decide, by decide, by decide⟩
  rw [key]
  exact spec_cmpVersion_range _ _ _

/-- The comparison of 8.0.33 with 8.0.9 equals the reference. -/
theorem cmpVersion_eq_spec_witness :
    (∀ r ∈ Spec.digitRuns "8.0.33".data, digitsValue r ≤ maxInt) ∧
    (∀ r ∈ Spec.digitRuns "8.0.9".data, digitsValue r ≤ maxInt) ∧
    cmpVersion "8.0.33" "8.0.9" = Spec.cmpVersion digitsValue "8.0.33" "8.0.9" ∧
    cmpVersion "8.0.33" "8.0.9" = 1 :=
  ⟨by decide, by decide,
    (cmpVersion_eq_spec "8.0.33" "8.0.9" (by decide) (by decide)).2.1, by decide⟩

/-- C4 fails as stated: the digit runs of 9223372036854775808 and of
9223372036854775807 have different integer values, so that the reference gives 1,
and cmpVersion gives 0, both values being read as 2^63 - 1. -/
theorem cmpVersion_eq_spec_counterexample :
    cmpVersion "9223372036854775808" "9223372036854775807" = 0 ∧
    Spec.cmpVersion digitsValue "9223372036854775808" "9223372036854775807" = 1 ∧
    cmpVersion "9223372036854775808" "9223372036854775807" ≠
      Spec.cmpVersion digitsValue "9223372036854775808" "9223372036854775807" := by
  decide

/-! ## Dotted version strings -/

theorem digitRuns_run_append (g rest : List Char) (hg : g ≠ [])
    (hd : ∀ c ∈ g, isDigit c = true) (hr : startsWithDigit rest = false) :
    digitRuns (g ++ rest) = g :: digitRuns rest := by
  induction g with
  | nil => exact absurd rfl hg
  | cons c g ih =>
    have hc : isDigit c = true := hd c (List.mem_cons_self _ _)
    cases g with
    | nil =>
      rw [List.singleton_append, digitRuns, if_pos hc, hr]
      generalize digitRuns rest = R
      cases R <;> simp [pushDigit]
    | cons d g =>
      have hd2 : isDigit d = true := hd d (by simp)
      have ih2 := ih (by simp) (fun x hx => hd x (List.mem_cons_of_mem _ hx))
      rw [List.cons_append, digitRuns, if_pos hc, ih2]
      simp [startsWithDigit, hd2, pushDigit]

theorem dotted_singleton (g : List Char) : dotted [g] = g := rfl

theorem dotted_cons_cons (g g2 : List Char) (gs : List (List Char)) :
    dotted (g :: g2 :: gs) = g ++ '.' :: dotted (g2 :: gs) := rfl

theorem digitRuns_dotted (gs : List (List Char)) (h : ∀ g ∈ gs, isGroup g) :
    digitRuns (dotted gs) = gs := by
  induction gs with
  | nil => rfl
  | cons g gs ih =>
    have hg := h g (List.mem_cons_self _ _)
    have ih2 := ih (fun x hx => h x (List.mem_cons_of_mem _ hx))
    cases gs with
    | nil =>
      have := digitRuns_run_append g [] hg.1 hg.2.1 rfl
      simpa [dotted_singleton, digitRuns] using this
    | cons g2 gs =>
      have hdot : isDigit '.' = false := by decide
      rw [dotted_cons_cons, digitRuns_run_append g _ hg.1 hg.2.1 (by simp [startsWithDigit, hdot]),
        digitRuns_cons_nondigit _ hdot, ih2]

theorem isSpace_of_isDigit {c : Char} (h : isDigit c = true) : isSpace c = false := by
  cases hs : isSpace c with
  | false => rfl
  | true => rw [isDigit_of_isSpace hs] at h; exact absurd h (by decide)

theorem dotted_ne_nil (gs : List (List Char)) (hne : gs ≠ []) (h : ∀ g ∈ gs, isGroup g) :
    dotted gs ≠ [] := by
  cases gs with
  | nil => exact absurd rfl hne
  | cons g gs =>
    have hg := (h g (List.mem_cons_self _ _)).1
    cases gs with
    | nil => simpa [dotted_singleton] using hg
    | cons g2 gs => simp [dotted_cons_cons]

theorem head_dotted (gs : List (List Char)) (h : ∀ g ∈ gs, isGroup g) :
    ∀ c ∈ (dotted gs).head?, isDigit c = true := by
  cases gs with
  | nil => simp [dotted]
  | cons g gs =>
    have hg := h g (List.mem_cons_self _ _)
    cases g with
    | nil => exact absurd rfl hg.1
    | cons x xs =>
      have hx : isDigit x = true := hg.2.1 x (List.mem_cons_self _ _)
      cases gs with
      | nil => simp [dotted_singleton, hx]
      | cons g2 gs => simp [dotted_cons_cons, hx]

theorem getLast_dotted (gs : List (List Char)) (h : ∀ g ∈ gs, isGroup g) :
    ∀ c ∈ (dotted gs).getLast?, isDigit c = true := by
  induction gs with
  | nil => simp [dotted]
  | cons g gs ih =>
    have hg := h g (List.mem_cons_self _ _)
    have ih2 := ih (fun x hx => h x (List.mem_cons_of_mem _ hx))
    cases gs with
    | nil =>
      intro c hc
      rw [dotted_singleton] at hc
      exact hg.2.1 c (List.mem_of_getLast?_eq_some hc)
    | cons g2 gs =>
      intro c hc
      have hne := dotted_ne_nil (g2 :: gs) (by simp)
        (fun x hx => h x (List.mem_cons_of_mem _ hx))
      obtain ⟨y, ys, hys⟩ := List.exists_cons_of_ne_nil hne
      rw [dotted_cons_cons, List.getLast?_append_of_ne_nil _ (by simp), hys,
        List.getLast?_cons_cons, ← hys] at hc
      exact ih2 c hc

theorem trimSpace_eq_self (s : List Char) (hh : ∀ c ∈ s.head?, isSpace c = false)
    (hl : ∀ c ∈ s.getLast?, isSpace c = false) : trimSpace s = s := by
  unfold trimSpace
  have h1 : s.dropWhile isSpace = s := by
    cases s with
    | nil => rfl
    | cons x xs =>
      have hx : isSpace x = false := hh x (by simp)
      simp [List.dropWhile, hx]
  rw [h1]
  have h2 : s.reverse.dropWhile isSpace = s.reverse := by
    cases hr : s.reverse with
    | nil => rfl
    | cons x xs =>
      have hx : isSpace x = false := by
        apply hl x
        have : s = (x :: xs).reverse := by rw [← hr, List.reverse_reverse]
        rw [this]
        simp
      simp [List.dropWhile, hx]
  rw [h2, List.reverse_reverse]

theorem trimSpace_dotted (gs : List (List Char)) (h : ∀ g ∈ gs, isGroup g) :
    trimSpace (dotted gs) = dotted gs :=
  trimSpace_eq_self _ (fun c hc => isSpace_of_isDigit (head_dotted gs h c hc))
    (fun c hc => isSpace_of_isDigit (getLast_dotted gs h c hc))

theorem tokenizeVersion_dotted (gs : List (List Char)) (h : ∀ g ∈ gs, isGroup g) :
    tokenizeVersion (dotted gs) = gs.map digitsValue := by
  rw [tokenizeVersion, digitRuns_dotted gs h]
  exact map_atoi_eq_digitsValue gs (fun g hg => (h g hg).2.2)

/-- C5, as the code has it: for version strings a and b made purely of
dot-separated groups of decimal digits with values of at most 2^63 - 1,
cmpVersion(a, b) is 1 when the component-wise comparison of the components as
integers (a missing component counting as 0) is greater and -1 when it is less;
when it is equal, cmpVersion(a, b) is 1, -1 or 0 according to whether a has more,
fewer or as many bytes as b.  For example cmpVersion of 8.0.33 and 8.0.9 is
positive. -/
theorem cmpVersion_dotted (ga gb : List (List Char))
    (ha : ∀ g ∈ ga, isGroup g) (hb : ∀ g ∈ gb, isGroup g) :
    (Spec.compareSeq (ga.map digitsValue) (gb.map digitsValue) = 1 →
      cmpVersion ⟨dotted ga⟩ ⟨dotted gb⟩ = 1) ∧
    (Spec.compareSeq (ga.map digitsValue) (gb.map digitsValue) = -1 →
      cmpVersion ⟨dotted ga⟩ ⟨dotted gb⟩ = -1) ∧
    (Spec.compareSeq (ga.map digitsValue) (gb.map digitsValue) = 0 →
      cmpVersion ⟨dotted ga⟩ ⟨dotted gb⟩ =
        if byteLen (dotted ga) > byteLen (dotted gb) then 1
        else if byteLen (dotted ga) < byteLen (dotted gb) then -1
        else 0) ∧
    cmpVersion "8.0.33" "8.0.9" > 0 := by
  have key : cmpVersion ⟨dotted ga⟩ ⟨dotted gb⟩ =
      if Spec.compareSeq (ga.map digitsValue) (gb.map digitsValue) ≠ 0 then
        Spec.compareSeq (ga.map digitsValue) (gb.map digitsValue)
      else if byteLen (dotted ga) > byteLen (dotted gb) then 1
      else if byteLen (dotted ga) < byteLen (dotted gb) then -1
      else 0 := by
    rw [cmpVersion_eq_spec_atoi]
    simp only [Spec.cmpVersion, ← digitRuns_eq_spec, trimSpace_dotted ga ha,
      trimSpace_dotted gb hb, digitRuns_dotted ga ha, digitRuns_dotted gb hb,
      map_atoi_eq_digitsValue ga (fun g hg => (ha g hg).2.2),
      map_atoi_eq_digitsValue gb (fun g hg => (hb g hg).2.2)]
  refine ⟨?_, ?_, ?_, by decide⟩
  · intro h; rw [key, h]; simp
  · intro h; rw [key, h]; simp
  · intro h; rw [key, h]; simp

/-- The comparison of 8.0.33 with 8.0.9, given by their groups. -/
theorem cmpVersion_dotted_witness :
    (∀ g ∈ ["8".data, "0".data, "33".data], isGroup g) ∧
    (∀ g ∈ ["8".data, "0".data, "9".data], isGroup g) ∧
    dotted ["8".data, "0".data, "33".data] = "8.0.33".data ∧
    dotted ["8".data, "0".data, "9".data] = "8.0.9".data ∧
    Spec.compareSeq (["8".data, "0".data, "33".data].map digitsValue)
      (["8".data, "0".data, "9".data].map digitsValue) = 1 ∧
    cmpVersion ⟨dotted ["8".data, "0".data, "33".data]⟩
      ⟨dotted ["8".data, "0".data, "9".data]⟩ = 1 :=
  have ha : ∀ g ∈ ["8".data, "0".data, "33".data], isGroup g := by decide
  have hb : ∀ g ∈ ["8".data, "0".data, "9".data], isGroup g := by decide
  ⟨ha, hb, by decide, by decide, by decide,
    (cmpVersion_dotted ["8".data, "0".data, "33".data] ["8".data, "0".data, "9".data]
      ha hb).1 (by decide)⟩

/-- C5 fails as stated: the components of 8.0 and of 8.00 are equal as integers
and cmpVersion gives -1, not 0; so do those of 08 and of 8 the other way. -/
theorem cmpVersion_dotted_counterexample :
    (∀ g ∈ ["8".data, "0".data], isGroup g) ∧
    (∀ g ∈ ["8".data, "00".data], isGroup g) ∧
    dotted ["8".data, "0".data] = "8.0".data ∧
    dotted ["8".data, "00".data] = "8.00".data ∧
    ["8".data, "0".data].map digitsValue = ["8".data, "00".data].map digitsValue ∧
    Spec.compareSeq (["8".data, "0".data].map digitsValue)
      (["8".data, "00".data].map digitsValue) = 0 ∧
    cmpVersion "8.0" "8.00" = -1 ∧
    cmpVersion "08" "8" = 1 := by
  decide

/-! ## Rounding of `float64` products and quotients -/

namespace F64

theorem bitLenAux_zero (fuel : Nat) : bitLenAux fuel 0 = 0 := by
  cases fuel <;> simp [bitLenAux]

theorem bitLenAux_spec (fuel N : Nat) (hf : N ≤ fuel) (hN : N ≠ 0) :
    0 < bitLenAux fuel N ∧ 2 ^ (bitLenAux fuel N - 1) ≤ N ∧ N < 2 ^ bitLenAux fuel N := by
  induction fuel generalizing N with
  | zero => omega
  | succ f ih =>
    rw [bitLenAux, if_neg hN]
    by_cases h1 : N / 2 = 0
    · rw [h1, bitLenAux_zero]
      have : N = 1 := by omega
      subst this
      simp
    · obtain ⟨hb, hlo, hhi⟩ := ih (N / 2) (by omega) h1
      refine ⟨by omega, ?_, ?_⟩
      · have e : bitLenAux f (N / 2) + 1 - 1 = (bitLenAux f (N / 2) - 1) + 1 := by omega
        rw [e, pow_succ]
        omega
      · rw [pow_succ]
        omega

theorem bitLen_eq (N L : Nat) (hL : 0 < L) (hlo : 2 ^ (L - 1) ≤ N) (hhi : N < 2 ^ L) :
    bitLen N = L := by
  have hN : N ≠ 0 := by
    have := Nat.pos_pow_of_pos (L - 1) (by omega : 0 < 2)
    omega
  obtain ⟨hb, h1, h2⟩ := bitLenAux_spec N N (le_refl _) hN
  unfold bitLen
  have a1 : bitLenAux N N - 1 < L := (Nat.pow_lt_pow_iff_right (by omega : 1 < 2)).1 (by omega)
  have a2 : L - 1 < bitLenAux N N := (Nat.pow_lt_pow_iff_right (by omega : 1 < 2)).1 (by omega)
  omega

theorem bitLen_ne_zero (N : Nat) (h : bitLen N ≠ 0) : N ≠ 0 := by
  intro h0
  rw [h0] at h
  exact h (by decide)

theorem round_eq (neg : Bool) (N : Nat) (e : Int) (sticky : Bool) (L : Nat)
    (hbl : bitLen N = L) (hL : 53 < L) (hlo : -1074 ≤ e + L - 53) (hhi : e + L - 53 < 971) :
    round neg N e sticky =
      if roundMant N e (e + L - 53) sticky = 2 ^ 53 then fin neg (2 ^ 52) (e + L - 53 + 1)
      else fin neg (roundMant N e (e + L - 53) sticky) (e + L - 53) := by
  have hN : N ≠ 0 := bitLen_ne_zero N (by omega)
  unfold round
  rw [if_neg hN, hbl]
  simp only [max_eq_left hlo]
  rw [if_neg (by omega : ¬ e + (L : Int) - 53 + 1 > 971), if_neg (by omega : ¬ e + (L : Int) - 53 > 971)]

theorem roundMant_eq (N : Nat) (e e1 : Int) (sticky : Bool) (s : Nat) (hs : e1 - e = s)
    (hs0 : 0 < s) :
    roundMant N e e1 sticky =
      if (N % 2 ^ s > 2 ^ (s - 1) ||
          (N % 2 ^ s == 2 ^ (s - 1) && (sticky || N / 2 ^ s % 2 == 1))) then N / 2 ^ s + 1
      else N / 2 ^ s := by
  unfold roundMant
  rw [if_neg (by omega)]
  have : (e1 - e).toNat = s := by omega
  simp only [this]

theorem wCVE_eq : wCVE = fin false 5404319552844595 (-53) := by decide

theorem rne_cases (N s : Nat) (sticky : Bool) :
    (if (N % 2 ^ s > 2 ^ (s - 1) ||
          (N % 2 ^ s == 2 ^ (s - 1) && (sticky || N / 2 ^ s % 2 == 1))) then N / 2 ^ s + 1
      else N / 2 ^ s) = N / 2 ^ s + 1 ∧
      (N % 2 ^ s > 2 ^ (s - 1) ∨ (N % 2 ^ s = 2 ^ (s - 1) ∧ (sticky = true ∨ N / 2 ^ s % 2 = 1))) ∨
    (if (N % 2 ^ s > 2 ^ (s - 1) ||
          (N % 2 ^ s == 2 ^ (s - 1) && (sticky || N / 2 ^ s % 2 == 1))) then N / 2 ^ s + 1
      else N / 2 ^ s) = N / 2 ^ s ∧
      (N % 2 ^ s < 2 ^ (s - 1) ∨ (N % 2 ^ s = 2 ^ (s - 1) ∧ sticky = false)) := by
  by_cases h1 : N % 2 ^ s > 2 ^ (s - 1)
  · left; simp [h1]
  · by_cases h2 : N % 2 ^ s = 2 ^ (s - 1)
    · cases sticky
      · by_cases h3 : N / 2 ^ s % 2 = 1
        · left; simp [h2, h3]
        · right; simp [h2, h3]
      · left; simp [h2]
    · right
      have : N % 2 ^ s < 2 ^ (s - 1) := by omega
      have h4 : ¬ (2 ^ (s - 1) < N % 2 ^ s) := by omega
      simp [h2, this, h4]

theorem mul_wCVE (neg : Bool) (m : Nat) (e : Int) (hm1 : 2 ^ 52 ≤ m) (hm2 : m < 2 ^ 53)
    (he1 : -1072 ≤ e) (he2 : e ≤ 970) :
    ∃ q : Nat, ∃ e1 : Int, mul (fin neg m e) wCVE = fin neg q e1 ∧
      2 ^ 52 ≤ q ∧ q < 2 ^ 53 ∧
      ((e1 = e - 1 ∧ 2 * (q * 2 ^ 52) ≤ 2 * (m * 5404319552844595) + 2 ^ 52 ∧
          2 * (m * 5404319552844595) ≤ 2 * (q * 2 ^ 52) + 2 ^ 52) ∨
       (e1 = e ∧ 2 * (q * 2 ^ 53) ≤ 2 * (m * 5404319552844595) + 2 ^ 53 ∧
          2 * (m * 5404319552844595) ≤ 2 * (q * 2 ^ 53) + 2 ^ 53)) := by
  rw [wCVE_eq]
  simp only [mul, Bool.xor_false]
  by_cases hc : m * 5404319552844595 < 2 ^ 105
  · have hbl := bitLen_eq (m * 5404319552844595) 105 (by omega) (by norm_num at hm1 ⊢; omega) hc
    rw [round_eq neg _ _ false 105 hbl (by omega) (by push_cast; omega) (by push_cast; omega)]
    rw [roundMant_eq _ _ _ false 52 (by push_cast; omega) (by omega)]
    rcases rne_cases (m * 5404319552844595) 52 false with ⟨hq, hr⟩ | ⟨hq, hr⟩
    · rw [hq]
      by_cases h53 : m * 5404319552844595 / 2 ^ 52 + 1 = 2 ^ 53
      · rw [if_pos h53]
        refine ⟨2 ^ 52, e, by congr 1; push_cast; omega, by omega, by omega, Or.inr ⟨rfl, ?_, ?_⟩⟩
        · norm_num at hr h53 hc ⊢; omega
        · norm_num at hr h53 hc ⊢; omega
      · rw [if_neg h53]
        refine ⟨_, e - 1, by congr 1; push_cast; omega, ?_, ?_, Or.inl ⟨rfl, ?_, ?_⟩⟩
        · norm_num at hr h53 hc hm1 ⊢; omega
        · norm_num at hr h53 hc hm1 ⊢; omega
        · norm_num at hr h53 hc hm1 ⊢; omega
        · norm_num at hr h53 hc hm1 ⊢; omega
    · rw [hq]
      have h53 : ¬ m * 5404319552844595 / 2 ^ 52 = 2 ^ 53 := by norm_num at hc ⊢; omega
      rw [if_neg h53]
      refine ⟨_, e - 1, by congr 1; push_cast; omega, ?_, ?_, Or.inl ⟨rfl, ?_, ?_⟩⟩
      · norm_num at hr h53 hc hm1 ⊢; omega
      · norm_num at hr h53 hc hm1 ⊢; omega
      · norm_num at hr h53 hc hm1 ⊢; omega
      · norm_num at hr h53 hc hm1 ⊢; omega
  · have hbl := bitLen_eq (m * 5404319552844595) 106 (by omega) (Nat.le_of_not_lt hc)
      (by norm_num at hm2 ⊢; omega)
    rw [round_eq neg _ _ false 106 hbl (by omega) (by push_cast; omega) (by push_cast; omega)]
    rw [roundMant_eq _ _ _ false 53 (by push_cast; omega) (by omega)]
    rcases rne_cases (m * 5404319552844595) 53 false with ⟨hq, hr⟩ | ⟨hq, hr⟩
    · rw [hq]
      have h53 : ¬ m * 5404319552844595 / 2 ^ 53 + 1 = 2 ^ 53 := by norm_num at hm2 ⊢; omega
      rw [if_neg h53]
      refine ⟨_, e, by congr 1; push_cast; omega, ?_, ?_, Or.inr ⟨rfl, ?_, ?_⟩⟩
      · norm_num at hr hc hm1 hm2 ⊢; omega
      · norm_num at hr hc hm1 hm2 ⊢; omega
      · norm_num at hr hc hm1 hm2 ⊢; omega
      · norm_num at hr hc hm1 hm2 ⊢; omega
    · rw [hq]
      have h53 : ¬ m * 5404319552844595 / 2 ^ 53 = 2 ^ 53 := by norm_num at hm2 ⊢; omega
      rw [if_neg h53]
      refine ⟨_, e, by congr 1; push_cast; omega, ?_, ?_, Or.inr ⟨rfl, ?_, ?_⟩⟩
      · norm_num at hr hc hm1 hm2 ⊢; omega
      · norm_num at hr hc hm1 hm2 ⊢; omega
      · norm_num at hr hc hm1 hm2 ⊢; omega
      · norm_num at hr hc hm1 hm2 ⊢; omega

/-- Adding a normal number to `+0` gives the number back. -/
theorem zero_add_normal (neg : Bool) (q : Nat) (e1 : Int) (hq1 : 2 ^ 52 ≤ q) (hq2 : q < 2 ^ 53)
    (he1 : -1074 < e1) (he2 : e1 ≤ 970) :
    add zero (fin neg q e1) = fin neg q e1 := by
  obtain ⟨k, hk⟩ : ∃ k : Nat, e1 - (-1074) = k := ⟨(e1 + 1074).toNat, by omega⟩
  have hk0 : 0 < k := by omega
  have hmin : min (-1074 : Int) e1 = -1074 := min_eq_left (by omega)
  have hpow : 0 < 2 ^ k := Nat.pos_pow_of_pos k (by omega)
  have hN : q * 2 ^ k ≠ 0 := by
    have : 0 < q * 2 ^ k := Nat.mul_pos (by omega) hpow
    omega
  have hbl : bitLen (q * 2 ^ k) = 53 + k := by
    apply bitLen_eq _ _ (by omega)
    · have : 53 + k - 1 = 52 + k := by omega
      rw [this, pow_add]
      exact Nat.mul_le_mul_right _ hq1
    · rw [pow_add]
      exact Nat.mul_lt_mul_of_pos_right hq2 hpow
  unfold add zero
  simp only [hmin, sub_self, Int.toNat_zero, pow_zero, mul_one, zero_mul, Nat.cast_zero,
    mul_zero, zero_add, Bool.false_and]
  have ht : (e1 - (-1074)).toNat = k := by omega
  rw [ht]
  have hpos : (0 : Int) < ((q * 2 ^ k : Nat) : Int) := by
    have : 0 < q * 2 ^ k := by omega
    exact_mod_cast this
  have hz : (if neg = true then (-1 : Int) else 1) * ((q * 2 ^ k : Nat) : Int) ≠ 0 := by
    cases neg <;> simp <;> omega
  have hsgn : decide ((if neg = true then (-1 : Int) else 1) * ((q * 2 ^ k : Nat) : Int) < 0)
      = neg := by
    cases neg
    · simp
    · simp
      omega
  have habs : ((if neg = true then (-1 : Int) else 1) * ((q * 2 ^ k : Nat) : Int)).natAbs
      = q * 2 ^ k := by
    cases neg
    · simp only [Bool.false_eq_true, if_false, one_mul]
      exact Int.natAbs_ofNat _
    · simp only [if_true, neg_one_mul, Int.natAbs_neg]
      exact Int.natAbs_ofNat _
  rw [if_neg hz, hsgn, habs]
  rw [round_eq neg _ _ false (53 + k) hbl (by omega) (by push_cast; omega) (by push_cast; omega)]
  rw [roundMant_eq _ _ _ false k (by push_cast; omega) hk0]
  have hmod : q * 2 ^ k % 2 ^ k = 0 := Nat.mul_mod_left _ _
  have hdiv : q * 2 ^ k / 2 ^ k = q := Nat.mul_div_cancel _ hpow
  have hhalf : 0 < 2 ^ (k - 1) := Nat.pos_pow_of_pos _ (by omega)
  rw [hmod, hdiv]
  have hc : (decide (0 > 2 ^ (k - 1)) || ((0 : Nat) == 2 ^ (k - 1) && (false || q % 2 == 1)))
      = false := by
    have h1 : ¬ (0 > 2 ^ (k - 1)) := by omega
    have h2 : ((0 : Nat) == 2 ^ (k - 1)) = false := by
      rw [beq_eq_false_iff_ne]; omega
    simp [h2]
  rw [hc]
  simp only [Bool.false_eq_true, if_false]
  rw [if_neg (by omega)]
  congr 1
  push_cast
  omega


theorem bitLen_W : bitLen 5404319552844595 = 53 := by decide

/-- The quotient of a normal number by the weight 0.6 is within half a unit of its
last place of the exact quotient. -/
theorem div_wCVE (neg : Bool) (q : Nat) (e1 : Int) (hq1 : 2 ^ 52 ≤ q) (hq2 : q < 2 ^ 53)
    (he1 : -1073 ≤ e1) (he2 : e1 ≤ 969) :
    ∃ r : Nat, ∃ e2 : Int, div (fin neg q e1) wCVE = fin neg r e2 ∧
      2 ^ 52 ≤ r ∧ r < 2 ^ 53 ∧
      ((e2 = e1 ∧ 2 * (r * 2 ^ 55 * 5404319552844595) ≤ 2 * (q * 2 ^ 108) + 2 ^ 55 * 5404319552844595 ∧
          2 * (q * 2 ^ 108) ≤ 2 * (r * 2 ^ 55 * 5404319552844595) + 2 ^ 55 * 5404319552844595) ∨
       (e2 = e1 + 1 ∧ 2 * (r * 2 ^ 56 * 5404319552844595) ≤ 2 * (q * 2 ^ 108) + 2 ^ 56 * 5404319552844595 ∧
          2 * (q * 2 ^ 108) ≤ 2 * (r * 2 ^ 56 * 5404319552844595) + 2 ^ 56 * 5404319552844595)) := by
  rw [wCVE_eq]
  simp only [div, Bool.xor_false, bitLen_W]
  rw [if_neg (by omega)]
  have e108 : (55 + 53 : Nat) = 108 := rfl
  rw [e108]
  by_cases hc : q * 2 ^ 108 / 5404319552844595 < 2 ^ 108
  · have hbl := bitLen_eq (q * 2 ^ 108 / 5404319552844595) 108 (by omega)
      (by norm_num at hq1 ⊢; omega) hc
    rw [round_eq neg _ _ _ 108 hbl (by omega) (by push_cast; omega) (by push_cast; omega)]
    rw [roundMant_eq _ _ _ _ 55 (by push_cast; omega) (by omega)]
    rcases rne_cases (q * 2 ^ 108 / 5404319552844595) 55
      (decide (q * 2 ^ 108 % 5404319552844595 ≠ 0)) with ⟨hq, hr⟩ | ⟨hq, hr⟩
    · rw [hq]
      simp only [decide_eq_true_eq] at hr
      by_cases h53 : q * 2 ^ 108 / 5404319552844595 / 2 ^ 55 + 1 = 2 ^ 53
      · rw [if_pos h53]
        refine ⟨2 ^ 52, e1 + 1, by congr 1; push_cast; omega, by omega, by omega,
          Or.inr ⟨rfl, ?_, ?_⟩⟩
        · norm_num at hr h53 hc hq1 hq2 ⊢; omega
        · norm_num at hr h53 hc hq1 hq2 ⊢; omega
      · rw [if_neg h53]
        refine ⟨_, e1, by congr 1; push_cast; omega, ?_, ?_, Or.inl ⟨rfl, ?_, ?_⟩⟩
        · norm_num at hr h53 hc hq1 hq2 ⊢; omega
        · norm_num at hr h53 hc hq1 hq2 ⊢; omega
        · norm_num at hr h53 hc hq1 hq2 ⊢; omega
        · norm_num at hr h53 hc hq1 hq2 ⊢; omega
    · rw [hq]
      simp only [decide_eq_false_iff_not, not_not] at hr
      have h53 : ¬ q * 2 ^ 108 / 5404319552844595 / 2 ^ 55 = 2 ^ 53 := by
        norm_num at hc ⊢; omega
      rw [if_neg h53]
      refine ⟨_, e1, by congr 1; push_cast; omega, ?_, ?_, Or.inl ⟨rfl, ?_, ?_⟩⟩
      · norm_num at hr h53 hc hq1 hq2 ⊢; omega
      · norm_num at hr h53 hc hq1 hq2 ⊢; omega
      · norm_num at hr h53 hc hq1 hq2 ⊢; omega
      · norm_num at hr h53 hc hq1 hq2 ⊢; omega
  · have hbl := bitLen_eq (q * 2 ^ 108 / 5404319552844595) 109 (by omega)
      (Nat.le_of_not_lt hc) (by norm_num at hq2 ⊢; omega)
    rw [round_eq neg _ _ _ 109 hbl (by omega) (by push_cast; omega) (by push_cast; omega)]
    rw [roundMant_eq _ _ _ _ 56 (by push_cast; omega) (by omega)]
    rcases rne_cases (q * 2 ^ 108 / 5404319552844595) 56
      (decide (q * 2 ^ 108 % 5404319552844595 ≠ 0)) with ⟨hq, hr⟩ | ⟨hq, hr⟩
    · rw [hq]
      simp only [decide_eq_true_eq] at hr
      have h53 : ¬ q * 2 ^ 108 / 5404319552844595 / 2 ^ 56 + 1 = 2 ^ 53 := by
        norm_num at hq2 ⊢; omega
      rw [if_neg h53]
      refine ⟨_, e1 + 1, by congr 1; push_cast; omega, ?_, ?_, Or.inr ⟨rfl, ?_, ?_⟩⟩
      · norm_num at hr h53 hc hq1 hq2 ⊢; omega
      · norm_num at hr h53 hc hq1 hq2 ⊢; omega
      · norm_num at hr h53 hc hq1 hq2 ⊢; omega
      · norm_num at hr h53 hc hq1 hq2 ⊢; omega
    · rw [hq]
      simp only [decide_eq_false_iff_not, not_not] at hr
      have h53 : ¬ q * 2 ^ 108 / 5404319552844595 / 2 ^ 56 = 2 ^ 53 := by
        norm_num at hq2 ⊢; omega
      rw [if_neg h53]
      refine ⟨_, e1 + 1, by congr 1; push_cast; omega, ?_, ?_, Or.inr ⟨rfl, ?_, ?_⟩⟩
      · norm_num at hr h53 hc hq1 hq2 ⊢; omega
      · norm_num at hr h53 hc hq1 hq2 ⊢; omega
      · norm_num at hr h53 hc hq1 hq2 ⊢; omega
      · norm_num at hr h53 hc hq1 hq2 ⊢; omega

end F64

theorem zero_add_wCVE : F64.add F64.zero wCVE = wCVE := by decide!

theorem wCVE_ne_zero : F64.eq wCVE F64.zero = false := by decide

theorem calcWeighted_single (x : F64) :
    calcWeighted (some x) none none =
      some (F64.div (F64.add F64.zero (F64.mul x wCVE)) wCVE) := by
  simp [calcWeighted, addScore, zero_add_wCVE, wCVE_ne_zero]

theorem calcWeighted_normal (neg : Bool) (m : Nat) (e : Int) (hm1 : 2 ^ 52 ≤ m)
    (hm2 : m < 2 ^ 53) (he1 : -1072 ≤ e) (he2 : e ≤ 969) :
    ∃ r : Nat, ∃ e2 : Int,
      calcWeighted (some (F64.fin neg m e)) none none = some (F64.fin neg r e2) ∧
      2 ^ 52 ≤ r ∧ r < 2 ^ 53 ∧
      ((e2 = e ∧ r ≤ m + 1 ∧ m ≤ r + 1) ∨ (e2 = e + 1 ∧ r = 2 ^ 52 ∧ m + 1 = 2 ^ 53)) := by
  obtain ⟨q, e1, hmul, hq1, hq2, hrel⟩ := F64.mul_wCVE neg m e hm1 hm2 he1 (by omega)
  have he1b : e1 = e - 1 ∨ e1 = e := by
    rcases hrel with ⟨h, _⟩ | ⟨h, _⟩
    · exact Or.inl h
    · exact Or.inr h
  have hadd := F64.zero_add_normal neg q e1 hq1 hq2 (by omega) (by omega)
  obtain ⟨r, e2, hdiv, hr1, hr2, hrel2⟩ := F64.div_wCVE neg q e1 hq1 hq2 (by omega) (by omega)
  refine ⟨r, e2, ?_, hr1, hr2, ?_⟩
  · rw [calcWeighted_single, hmul, hadd, hdiv]
  · norm_num at hrel hrel2 hm1 hm2 hq1 hq2 hr1 hr2 ⊢
    omega

/-! ## `calcWeighted` -/

/-- The sum of the weights of the present scores is never zero. -/
theorem weight_sum_ne_zero :
    F64.eq (F64.add F64.zero wCVE) F64.zero = false ∧
    F64.eq (F64.add F64.zero wCNVD) F64.zero = false ∧
    F64.eq (F64.add F64.zero wALY) F64.zero = false ∧
    F64.eq (F64.add (F64.add F64.zero wCVE) wCNVD) F64.zero = false ∧
    F64.eq (F64.add (F64.add F64.zero wCVE) wALY) F64.zero = false ∧
    F64.eq (F64.add (F64.add F64.zero wCNVD) wALY) F64.zero = false ∧
    F64.eq (F64.add (F64.add (F64.add F64.zero wCVE) wCNVD) wALY) F64.zero = false := by
  decide!

/-- C6: calcWeighted returns absent exactly when the three scores are absent, and
otherwise the sum over the present scores of score times weight divided by the
sum of the weights of the present scores, with the weights 0.6, 0.25 and 0.15,
all in float64 arithmetic; calcWeighted(9.0, 7.0, absent) is
(9.0*0.6 + 7.0*0.25) / 0.85. -/
theorem calcWeighted_eq_aggregate (cve cnvd aliyun : Option F64) :
    (calcWeighted cve cnvd aliyun = none ↔ cve = none ∧ cnvd = none ∧ aliyun = none) ∧
    calcWeighted cve cnvd aliyun = Spec.aggregate cve cnvd aliyun ∧
    wCVE = F64.lit 6 1 ∧ wCNVD = F64.lit 25 2 ∧ wALY = F64.lit 15 2 ∧
    calcWeighted (some (F64.lit 90 1)) (some (F64.lit 70 1)) none =
      some (F64.div (F64.add (F64.mul (F64.lit 90 1) (F64.lit 6 1))
        (F64.mul (F64.lit 70 1) (F64.lit 25 2))) (F64.lit 85 2)) := by
  obtain ⟨h1, h2, h3, h4, h5, h6, h7⟩ := weight_sum_ne_zero
  have h0 : F64.eq F64.zero F64.zero = true := by decide
  refine ⟨?_, ?_, rfl, rfl, rfl, by decide!⟩
  · cases cve <;> cases cnvd <;> cases aliyun <;>
      simp [calcWeighted, addScore, h0, h1, h2, h3, h4, h5, h6, h7]
  · cases cve <;> cases cnvd <;> cases aliyun <;>
      simp [calcWeighted, addScore, Spec.aggregate, Spec.presentScores, Spec.fsum,
        h0, h1, h2, h3, h4, h5, h6, h7]

/-- C7, as the code has it: for every score x, calcWeighted(x, absent, absent) is
present and is the float64 quotient of 0 + x*0.6 by 0.6, each operation rounded;
for a normal x, of mantissa m with 2^52 ≤ m < 2^53 and exponent e with
-1072 ≤ e ≤ 969, the result has the sign of x and is x or one of the two float64
numbers next to x; for x = 9.8 it is 9.8. -/
theorem calcWeighted_primary_only (neg : Bool) (m : Nat) (e : Int) (hm1 : 2 ^ 52 ≤ m)
    (hm2 : m < 2 ^ 53) (he1 : -1072 ≤ e) (he2 : e ≤ 969) :
    (∀ x : F64, calcWeighted (some x) none none =
      some (F64.div (F64.add F64.zero (F64.mul x wCVE)) wCVE)) ∧
    (∃ r : Nat, ∃ e2 : Int,
      calcWeighted (some (F64.fin neg m e)) none none = some (F64.fin neg r e2) ∧
      2 ^ 52 ≤ r ∧ r < 2 ^ 53 ∧
      ((e2 = e ∧ r ≤ m + 1 ∧ m ≤ r + 1) ∨ (e2 = e + 1 ∧ r = 2 ^ 52 ∧ m + 1 = 2 ^ 53))) ∧
    calcWeighted (some (F64.lit 98 1)) none none = some (F64.lit 98 1) :=
  ⟨calcWeighted_single, calcWeighted_normal neg m e hm1 hm2 he1 he2, by decide!⟩

/-- The score 7.0 is normal and its aggregate is within one unit of its last
place. -/
theorem calcWeighted_primary_only_witness :
    F64.lit 70 1 = F64.fin false (7 * 2 ^ 50) (-50) ∧
    2 ^ 52 ≤ 7 * 2 ^ 50 ∧ 7 * 2 ^ 50 < 2 ^ 53 ∧ (-1072 : Int) ≤ -50 ∧ (-50 : Int) ≤ 969 ∧
    ∃ r : Nat, ∃ e2 : Int,
      calcWeighted (some (F64.fin false (7 * 2 ^ 50) (-50))) none none =
        some (F64.fin false r e2) ∧
      2 ^ 52 ≤ r ∧ r < 2 ^ 53 ∧
      ((e2 = -50 ∧ r ≤ 7 * 2 ^ 50 + 1 ∧ 7 * 2 ^ 50 ≤ r + 1) ∨
        (e2 = -50 + 1 ∧ r = 2 ^ 52 ∧ 7 * 2 ^ 50 + 1 = 2 ^ 53)) :=
  ⟨by decide, by decide, by decide, by decide, by decide,
    (calcWeighted_primary_only false (7 * 2 ^ 50) (-50) (by decide) (by decide) (by decide)
      (by decide)).2.1⟩

/-- C7 fails as stated: calcWeighted(7.0, absent, absent) is the float64 number
after 7.0, which is 7.000000000000001, not 7.0. -/
theorem calcWeighted_primary_only_counterexample :
    calcWeighted (some (F64.lit 70 1)) none none =
      some (F64.fin false (7 * 2 ^ 50 + 1) (-50)) ∧
    F64.lit 70 1 = F64.fin false (7 * 2 ^ 50) (-50) ∧
    calcWeighted (some (F64.lit 70 1)) none none ≠ some (F64.lit 70 1) := by
  decide!

/-! ## `versionKey` -/

theorem pushDigit_ne_nil (c : Char) (j : Bool) (rs : List (List Char)) :
    pushDigit c j rs ≠ [] := by
  cases rs with
  | nil => simp [pushDigit]
  | cons r rs => cases j <;> simp [pushDigit]

theorem digitRuns_eq_nil_iff (s : List Char) :
    digitRuns s = [] ↔ ∀ c ∈ s, isDigit c = false := by
  induction s with
  | nil => simp [digitRuns]
  | cons c cs ih =>
    by_cases hc : isDigit c = true
    · simp [digitRuns, hc, pushDigit_ne_nil]
    · simp only [Bool.not_eq_true] at hc
      simp [digitRuns, hc, ih]

/-- C9, as the code has it: versionKey returns absent exactly when its input
contains no decimal digit; it returns absent for the empty string and a key for
every input with at least one digit. -/
theorem versionKey_none_iff (s : String) :
    (versionKey s = none ↔ ∀ c ∈ s.data, isDigit c = false) ∧
    versionKey "" = none ∧
    ((∃ c ∈ s.data, isDigit c = true) → ∃ k, versionKey s = some k) := by
  have h1 : versionKey s = none ↔ ∀ c ∈ s.data, isDigit c = false := by
    unfold versionKey
    by_cases hs : s = ""
    · simp [hs]
    · simp only [hs, if_false, List.length_eq_zero, digitRuns_eq_nil_iff]
      split <;> simp_all
  refine ⟨h1, by decide, ?_⟩
  rintro ⟨c, hc, hd⟩
  cases hk : versionKey s with
  | some k => exact ⟨k, rfl⟩
  | none =>
    have := h1.1 hk c hc
    rw [this] at hd
    exact absurd hd (by decide)

/-- The key of the string 14.9, which contains a digit. -/
theorem versionKey_none_iff_witness :
    (∃ c ∈ "14.9".data, isDigit c = true) ∧ ∃ k, versionKey "14.9" = some k :=
  ⟨by decide, (versionKey_none_iff "14.9").2.2 (by decide)⟩

/-- C9 fails as stated: the non-empty string abc has no key. -/
theorem versionKey_none_iff_counterexample :
    ("abc" : String) ≠ "" ∧ versionKey "abc" = none := by
  decide

theorem parseIntSafe_eq (nums : List (List Char)) (i : Nat) :
    parseIntSafe nums i = (((nums.map atoi).getD i 0 : Nat) : Int) := by
  unfold parseIntSafe
  by_cases h : i < nums.length
  · rw [if_neg (by omega)]
    simp [List.getD_eq_getElem?_getD, List.getElem?_eq_getElem h]
  · rw [if_pos (by omega)]
    simp [List.getD_eq_getElem?_getD, List.getElem?_eq_none (by omega : nums.length ≤ i)]

theorem getD_map_atoi (nums : List (List Char)) (i : Nat)
    (h : (nums.map digitsValue).getD i 0 ≤ maxInt) :
    (nums.map atoi).getD i 0 = (nums.map digitsValue).getD i 0 := by
  induction nums generalizing i with
  | nil => rfl
  | cons r rs ih =>
    cases i with
    | zero =>
      simp only [List.map_cons, List.getD_cons_zero] at h ⊢
      simp [atoi, h]
    | succ i =>
      simp only [List.map_cons, List.getD_cons_succ] at h ⊢
      exact ih i h

theorem wrap64_of_fits (x : Int) (h0 : 0 ≤ x) (h1 : x ≤ 9223372036854775807) :
    wrap64 x = x := by
  unfold wrap64
  norm_num
  omega

/-- The key of a string with a digit is the key of the specification when that
one fits an `int64`. -/
theorem versionKey_of_fits (s : String) (hne : Spec.digitRuns s.data ≠ [])
    (hfit : Spec.versionKey s ≤ maxInt) :
    versionKey s = some (Spec.versionKey s : Int) := by
  have hs : s ≠ "" := by
    intro h
    rw [h] at hne
    exact hne (by decide)
  rw [← digitRuns_eq_spec] at hne
  unfold Spec.versionKey Spec.values at hfit ⊢
  rw [← digitRuns_eq_spec] at hfit ⊢
  have hm : maxInt = 9223372036854775807 := by decide
  rw [hm] at hfit
  have e0 := getD_map_atoi (digitRuns s.data) 0 (by rw [hm]; omega)
  have e1 := getD_map_atoi (digitRuns s.data) 1 (by rw [hm]; omega)
  have e2 := getD_map_atoi (digitRuns s.data) 2 (by rw [hm]; omega)
  unfold versionKey
  simp only [hs, if_false, List.length_eq_zero, hne, parseIntSafe_eq, e0, e1, e2]
  generalize ((digitRuns s.data).map digitsValue).getD 0 0 = a at hfit ⊢
  generalize ((digitRuns s.data).map digitsValue).getD 1 0 = b at hfit ⊢
  generalize ((digitRuns s.data).map digitsValue).getD 2 0 = c at hfit ⊢
  rw [wrap64_of_fits (a * 1000000) (by omega) (by omega),
    wrap64_of_fits (b * 1000) (by omega) (by omega),
    wrap64_of_fits (a * 1000000 + b * 1000) (by omega) (by omega),
    wrap64_of_fits (a * 1000000 + b * 1000 + c) (by omega) (by omega)]
  push_cast
  rfl

/-- C8, as the code has it: for every version string that contains a digit and
whose value major*1_000_000 + minor*1_000 + patch is at most 2^63 - 1,
versionKey returns that value, where major, minor and patch are the integer
values of the first, second and third maximal runs of decimal digits, a missing
run counting as 0; versionKey of 14.9 is 14009000. -/
theorem versionKey_eq_spec (s : String) (hne : Spec.digitRuns s.data ≠ [])
    (hfit : Spec.versionKey s ≤ maxInt) :
    versionKey s = some (Spec.versionKey s : Int) ∧
    Spec.versionKey s =
      (Spec.values s).getD 0 0 * 1000000 + (Spec.values s).getD 1 0 * 1000 +
        (Spec.values s).getD 2 0 ∧
    versionKey "14.9" = some 14009000 :=
  ⟨versionKey_of_fits s hne hfit, rfl, by decide⟩

/-- The key of the build number 15.0.2000.5 of a database server. -/
theorem versionKey_eq_spec_witness :
    Spec.digitRuns "15.0.2000.5".data ≠ [] ∧
    Spec.versionKey "15.0.2000.5" ≤ maxInt ∧
    versionKey "15.0.2000.5" = some 15002000 :=
  ⟨by decide, by decide,
    (versionKey_eq_spec "15.0.2000.5" (by decide) (by decide)).1.trans (by decide)⟩

/-- C8 fails as stated: the non-empty string beta has no key at all, and the key
of 9223372036854775807 is -1000000 by the wrap-around of `int64`. -/
theorem versionKey_eq_spec_counterexample :
    ("beta" : String) ≠ "" ∧ versionKey "beta" = none ∧
    Spec.versionKey "beta" = 0 ∧
    versionKey "9223372036854775807" = some (-1000000) := by
  decide

/-! ## The key as an encoding of the order -/

theorem lex_cons_iff (a b : Nat) (l1 l2 : List Nat) :
    List.Lex (· < ·) (a :: l1) (b :: l2) ↔ a < b ∨ (a = b ∧ List.Lex (· < ·) l1 l2) := by
  constructor
  · intro h
    cases h with
    | cons h => exact Or.inr ⟨rfl, h⟩
    | rel h => exact Or.inl h
  · rintro (h | ⟨rfl, h⟩)
    · exact List.Lex.rel h
    · exact List.Lex.cons h

theorem lex_nil_nil : ¬ List.Lex (fun x y : Nat => x < y) [] [] :=
  List.Lex.not_nil_right _ _

theorem pad_three (l : List Nat) (h : l.length ≤ 3) :
    Spec.pad 3 l = [l.getD 0 0, l.getD 1 0, l.getD 2 0] := by
  rcases l with _ | ⟨a0, _ | ⟨a1, _ | ⟨a2, _ | ⟨a3, l⟩⟩⟩⟩
  · rfl
  · rfl
  · rfl
  · rfl
  · simp at h

theorem getD_lt_of_forall (l : List Nat) (n : Nat) (hn : 0 < n) (h : ∀ x ∈ l, x < n)
    (i : Nat) : l.getD i 0 < n := by
  by_cases hi : i < l.length
  · rw [List.getD_eq_getElem _ _ hi]
    exact h _ (List.getElem_mem hi)
  · rw [List.getD_eq_default _ _ (by omega)]
    exact hn

theorem compareSeq_eq_neg_one_iff (ta tb : List Nat) (ha : ta.length ≤ 3)
    (hb : tb.length ≤ 3) :
    Spec.compareSeq ta tb = -1 ↔ List.Lex (· < ·) (Spec.pad 3 ta) (Spec.pad 3 tb) := by
  rw [pad_three ta ha, pad_three tb hb]
  simp only [lex_cons_iff, lex_nil_nil, and_false, or_false]
  rcases ta with _ | ⟨a0, _ | ⟨a1, _ | ⟨a2, _ | ⟨a3, ta⟩⟩⟩⟩ <;>
  rcases tb with _ | ⟨b0, _ | ⟨b1, _ | ⟨b2, _ | ⟨b3, tb⟩⟩⟩⟩ <;>
  simp [Spec.compareSeq, Spec.pad, Spec.firstDiff] at ha hb ⊢ <;>
  (try split_ifs) <;>
  first
    | omega
    | (simp only [false_iff, not_false_eq_true, not_or, not_and]; omega)
    | trivial

theorem tokenizeVersion_of_lossless (a : String) (ha : Spec.lossless a) :
    tokenizeVersion a.data = Spec.values a := by
  unfold tokenizeVersion Spec.values
  rw [← digitRuns_eq_spec]
  apply map_atoi_eq_digitsValue
  intro r hr
  have h := ha.2.2 (digitsValue r) (by
    unfold Spec.values
    rw [← digitRuns_eq_spec]
    exact List.mem_map_of_mem _ hr)
  have hm : maxInt = 9223372036854775807 := by decide
  omega

theorem versionKey_of_lossless (a : String) (ha : Spec.lossless a) :
    versionKey a = some (Spec.versionKey a : Int) := by
  apply versionKey_of_fits
  · intro h
    have h1 := ha.1
    unfold Spec.values at h1
    rw [h] at h1
    simp at h1
  · have h0 := getD_lt_of_forall (Spec.values a) 1000 (by omega) ha.2.2 0
    have h1 := getD_lt_of_forall (Spec.values a) 1000 (by omega) ha.2.2 1
    have h2 := getD_lt_of_forall (Spec.values a) 1000 (by omega) ha.2.2 2
    have hm : maxInt = 9223372036854775807 := by decide
    unfold Spec.versionKey
    omega

/-- On the lossless domain the key orders strings as the loop of `cmpVersion` does. -/
theorem versionKey_order_aux (a b : String) (ha : Spec.lossless a) (hb : Spec.lossless b) :
    ∃ ka kb : Int, versionKey a = some ka ∧ versionKey b = some kb ∧
      (ka < kb ↔
        List.Lex (· < ·) (Spec.pad 3 (Spec.values a)) (Spec.pad 3 (Spec.values b))) ∧
      (ka = kb ↔ Spec.pad 3 (Spec.values a) = Spec.pad 3 (Spec.values b)) ∧
      (List.Lex (· < ·) (Spec.pad 3 (Spec.values a)) (Spec.pad 3 (Spec.values b)) ↔
        cmpLoop (tokenizeVersion a.data) (tokenizeVersion b.data)
          (max (tokenizeVersion a.data).length (tokenizeVersion b.data).length) 0 =
          some (-1)) := by
  have a0 := getD_lt_of_forall (Spec.values a) 1000 (by omega) ha.2.2 0
  have a1 := getD_lt_of_forall (Spec.values a) 1000 (by omega) ha.2.2 1
  have a2 := getD_lt_of_forall (Spec.values a) 1000 (by omega) ha.2.2 2
  have b0 := getD_lt_of_forall (Spec.values b) 1000 (by omega) hb.2.2 0
  have b1 := getD_lt_of_forall (Spec.values b) 1000 (by omega) hb.2.2 1
  have b2 := getD_lt_of_forall (Spec.values b) 1000 (by omega) hb.2.2 2
  refine ⟨_, _, versionKey_of_lossless a ha, versionKey_of_lossless b hb, ?_, ?_, ?_⟩
  · rw [pad_three _ ha.2.1, pad_three _ hb.2.1]
    simp only [lex_cons_iff, lex_nil_nil, and_false, or_false, Spec.versionKey]
    omega
  · rw [pad_three _ ha.2.1, pad_three _ hb.2.1]
    simp only [Spec.versionKey, List.cons.injEq, and_true]
    omega
  · rw [tokenizeVersion_of_lossless a ha, tokenizeVersion_of_lossless b hb,
      cmpLoop_eq_compareSeq, ← compareSeq_eq_neg_one_iff _ _ ha.2.1 hb.2.1]
    by_cases hc : Spec.compareSeq (Spec.values a) (Spec.values b) = 0
    · simp [hc]
    · simp [hc]

/-- C10: for two version strings with between one and three digit runs, each of
a value below 1000, both keys exist, versionKey(a) is below versionKey(b) exactly
when the digit-run sequence of a padded with zeros to three positions is
lexicographically smaller than that of b, the keys are equal exactly when the
padded sequences are equal, and that lexicographic order is the one the loop of
cmpVersion decides. -/
theorem versionKey_order (a b : String) (ha : Spec.lossless a) (hb : Spec.lossless b) :
    ∃ ka kb : Int, versionKey a = some ka ∧ versionKey b = some kb ∧
      (ka < kb ↔
        List.Lex (· < ·) (Spec.pad 3 (Spec.values a)) (Spec.pad 3 (Spec.values b))) ∧
      (ka = kb ↔ Spec.pad 3 (Spec.values a) = Spec.pad 3 (Spec.values b)) ∧
      (List.Lex (· < ·) (Spec.pad 3 (Spec.values a)) (Spec.pad 3 (Spec.values b)) ↔
        cmpLoop (tokenizeVersion a.data) (tokenizeVersion b.data)
          (max (tokenizeVersion a.data).length (tokenizeVersion b.data).length) 0 =
          some (-1)) :=
  versionKey_order_aux a b ha hb

/-- The keys of 14.9 and of 14.10 and the order of their digit runs. -/
theorem versionKey_order_witness :
    Spec.lossless "14.9" ∧ Spec.lossless "14.10" ∧
    versionKey "14.9" = some 14009000 ∧ versionKey "14.10" = some 14010000 ∧
    List.Lex (· < ·) (Spec.pad 3 (Spec.values "14.9")) (Spec.pad 3 (Spec.values "14.10")) ∧
    ∃ ka kb : Int, versionKey "14.9" = some ka ∧ versionKey "14.10" = some kb ∧
      (ka < kb ↔
        List.Lex (· < ·) (Spec.pad 3 (Spec.values "14.9"))
          (Spec.pad 3 (Spec.values "14.10"))) ∧
      (ka = kb ↔ Spec.pad 3 (Spec.values "14.9") = Spec.pad 3 (Spec.values "14.10")) ∧
      (List.Lex (· < ·) (Spec.pad 3 (Spec.values "14.9"))
          (Spec.pad 3 (Spec.values "14.10")) ↔
        cmpLoop (tokenizeVersion "14.9".data) (tokenizeVersion "14.10".data)
          (max (tokenizeVersion "14.9".data).length (tokenizeVersion "14.10".data).length)
          0 = some (-1)) :=
  ⟨by decide, by decide, by decide, by decide, by decide,
    versionKey_order "14.9" "14.10" (by decide) (by decide)⟩

/-! ## The result of `Match` -/

theorem filterLoop_eq (version : String) (rows out : List VulnRecord) :
    filterLoop version rows out = out ++ rows.filter (accepts version) := by
  induction rows generalizing out with
  | nil => simp [filterLoop]
  | cons v rows ih =>
    by_cases h : accepts version v = true
    · simp [filterLoop, h, ih]
    · simp [filterLoop, h, ih]

theorem matchRows_eq (version : String) (rows : List VulnRecord) :
    matchRows version rows = (rows.filter (accepts version)).map withFinalScore := by
  simp [matchRows, filterLoop_eq]

/-- C11: when the data source (the normalized-key query, or the full query after
the first one failed) delivers `rows`, Match returns without error the rows
accepted by the version check, in the order received, each with FinalScore set to
calcWeighted(CVSS, CNVD, Aliyun) of the row and every other field unchanged. -/
theorem match_result (st : StoreAPI) (vendor product version : String)
    (rows : List VulnRecord)
    (h : st.QueryVulnsMatch vendor product version = .ok rows ∨
      ((∃ e, st.QueryVulnsMatch vendor product version = .error e) ∧
        st.QueryVulnsByRange vendor product version = .ok rows)) :
    Match st vendor product version =
      .ok ((rows.filter (accepts version)).map withFinalScore) ∧
    List.Sublist (rows.filter (accepts version)) rows ∧
    (∀ v : VulnRecord,
      (withFinalScore v).FinalScore = calcWeighted v.CVSS v.CNVD v.Aliyun ∧
      { withFinalScore v with FinalScore := v.FinalScore } = v) := by
  refine ⟨?_, List.filter_sublist _, fun v => ⟨rfl, rfl⟩⟩
  rcases h with h | ⟨⟨e, he⟩, h⟩
  · simp [Match, h, matchRows_eq]
  · simp [Match, he, h, matchRows_eq]

/-- C12: Match returns an error exactly when both queries fail, and the error is
then the one of the full query; when the normalized-key query fails and the full
query succeeds, Match returns the result computed from the rows of the full
query. -/
theorem match_error_iff (st : StoreAPI) (vendor product version : String) :
    ((∃ e, Match st vendor product version = .error e) ↔
      (∃ e1, st.QueryVulnsMatch vendor product version = .error e1) ∧
      (∃ e2, st.QueryVulnsByRange vendor product version = .error e2)) ∧
    (∀ e, Match st vendor product version = .error e →
      st.QueryVulnsByRange vendor product version = .error e) ∧
    (∀ e1 rows, st.QueryVulnsMatch vendor product version = .error e1 →
      st.QueryVulnsByRange vendor product version = .ok rows →
      Match st vendor product version = .ok (matchRows version rows)) := by
  unfold Match
  cases h1 : st.QueryVulnsMatch vendor product version with
  | ok rows => simp
  | error e1 =>
    cases h2 : st.QueryVulnsByRange vendor product version with
    | ok rows => simp
    | error e2 => simp

/-! ## The normalized-key query against the check of `Match` -/

theorem cmpLoop_swap (ta tb : List Nat) (n i : Nat) :
    cmpLoop tb ta n i = (cmpLoop ta tb n i).map (fun r => -r) := by
  induction n generalizing i with
  | zero => rfl
  | succ n ih =>
    simp only [cmpLoop]
    rw [ih]
    generalize ta.getD i 0 = x
    generalize tb.getD i 0 = y
    rcases lt_trichotomy x y with h | h | h
    · have h2 : ¬ y < x := by omega
      simp [h, h2]
    · subst h
      simp
    · have h2 : ¬ x < y := by omega
      simp [h, h2]

theorem cmpVersion_of_loop (a b : String) (r : Int)
    (h : cmpLoop (tokenizeVersion a.data) (tokenizeVersion b.data)
      (max (tokenizeVersion a.data).length (tokenizeVersion b.data).length) 0 = some r) :
    cmpVersion a b = r := by
  simp only [cmpVersion, cmpVersionL, tokenizeVersion_trimSpace, h]

theorem cmpVersion_self (a : String) : cmpVersion a a = 0 := by
  rw [cmpVersion_of_tokens_eq a a rfl]
  simp

/-- On the lossless domain, and when equal keys mean equal strings, the order of
the keys is the order `cmpVersion` gives. -/
theorem key_le_iff (t f : String) (ht : Spec.lossless t) (hf : Spec.lossless f)
    (hcol : versionKey f = versionKey t → f = t) :
    ∃ kf kt : Int, versionKey f = some kf ∧ versionKey t = some kt ∧
      (kf ≤ kt ↔ cmpVersion t f ≥ 0) ∧ (kt ≤ kf ↔ cmpVersion t f ≤ 0) ∧
      (cmpVersion t f = 0 → kf = kt) := by
  obtain ⟨kf, kt, hkf, hkt, h1, _, h3⟩ := versionKey_order_aux f t hf ht
  obtain ⟨kt2, kf2, hkt2, hkf2, g1, _, g3⟩ := versionKey_order_aux t f ht hf
  have e1 : kt2 = kt := by rw [hkt] at hkt2; exact (Option.some.inj hkt2).symm
  have e2 : kf2 = kf := by rw [hkf] at hkf2; exact (Option.some.inj hkf2).symm
  subst e1 e2
  refine ⟨kf2, kt2, hkf, hkt, ?_⟩
  rcases lt_trichotomy kf2 kt2 with hlt | heq | hgt
  · have hl := h3.1 (h1.1 hlt)
    rw [cmpLoop_swap, max_comm] at hl
    have hv : cmpVersion t f = 1 := by
      apply cmpVersion_of_loop
      cases hc : cmpLoop (tokenizeVersion t.data) (tokenizeVersion f.data)
          (max (tokenizeVersion t.data).length (tokenizeVersion f.data).length) 0 with
      | none => rw [hc] at hl; simp at hl
      | some r =>
        rw [hc] at hl
        simp only [Option.map_some', Option.some.injEq] at hl
        congr 1
        omega
    rw [hv]
    refine ⟨?_, ?_, ?_⟩ <;> omega
  · have hft : f = t := hcol (by rw [hkf, hkt, heq])
    subst hft
    rw [cmpVersion_self]
    refine ⟨?_, ?_, ?_⟩ <;> omega
  · have hv : cmpVersion t f = -1 := cmpVersion_of_loop t f (-1) (g3.1 (g1.1 hgt))
    rw [hv]
    refine ⟨?_, ?_, ?_⟩ <;> omega

theorem sqlOr_some (a b : Bool) : sqlOr (some a) (some b) = some (a || b) := by
  cases a <;> cases b <;> rfl

theorem sqlAnd_some (a b : Bool) : sqlAnd (some a) (some b) = some (a && b) := by
  cases a <;> cases b <;> rfl

theorem versionKey_empty : versionKey "" = none := by decide

theorem lower_condition (version : String) (v : VulnRecord) (ht : Spec.lossless version)
    (hs : Spec.wellKeyed version v.VersionStart) :
    sqlOr (sqlIsNull (versionKey v.VersionStart))
      (sqlLe (versionKey v.VersionStart) (versionKey version)) = some (lowerOk version v) := by
  by_cases h : v.VersionStart = ""
  · simp [h, versionKey_empty, sqlIsNull, sqlOr, lowerOk]
  · obtain ⟨hl, hcol⟩ := hs h
    obtain ⟨kf, kt, hkf, hkt, h1, _, _⟩ := key_le_iff version v.VersionStart ht hl hcol
    rw [hkf, hkt]
    simp only [sqlIsNull, sqlLe, Option.isNone_some, sqlOr_some, Bool.false_or, lowerOk]
    have : (v.VersionStart == "") = false := by simpa using h
    rw [this, Bool.false_or]
    congr 1
    exact decide_eq_decide.2 h1

theorem upper_condition (version : String) (v : VulnRecord) (ht : Spec.lossless version)
    (he : Spec.wellKeyed version v.VersionEnd) :
    sqlOr (sqlIsNull (versionKey v.VersionEnd))
      (sqlLe (versionKey version) (versionKey v.VersionEnd)) = some (upperOk version v) := by
  by_cases h : v.VersionEnd = ""
  · simp [h, versionKey_empty, sqlIsNull, sqlOr, upperOk]
  · obtain ⟨hl, hcol⟩ := he h
    obtain ⟨kf, kt, hkf, hkt, _, h2, _⟩ := key_le_iff version v.VersionEnd ht hl hcol
    rw [hkf, hkt]
    simp only [sqlIsNull, sqlLe, Option.isNone_some, sqlOr_some, Bool.false_or, upperOk]
    have : (v.VersionEnd == "") = false := by simpa using h
    rw [this, Bool.false_or]
    congr 1
    exact decide_eq_decide.2 h2

/-- The key condition of the query on a record whose fields the key represents
without loss. -/
theorem keyCondition_of_wellKeyed (version : String) (v : VulnRecord)
    (ht : Spec.lossless version) (hs : Spec.wellKeyed version v.VersionStart)
    (he : Spec.wellKeyed version v.VersionEnd) (hn : Spec.wellKeyed version v.VersionNumber) :
    (v.VersionNumber = "" →
      keyCondition (versionKey version) (versionKey v.VersionStart) (versionKey v.VersionEnd)
        (versionKey v.VersionNumber) = some (accepts version v)) ∧
    (accepts version v = true →
      keyCondition (versionKey version) (versionKey v.VersionStart) (versionKey v.VersionEnd)
        (versionKey v.VersionNumber) = some true) := by
  have hlo := lower_condition version v ht hs
  have hup := upper_condition version v ht he
  have hrange : v.VersionNumber = "" →
      keyCondition (versionKey version) (versionKey v.VersionStart) (versionKey v.VersionEnd)
        (versionKey v.VersionNumber) = some (accepts version v) := by
    intro h
    unfold keyCondition
    rw [hlo, hup, h, versionKey_empty, sqlAnd_some]
    have hx : sqlAnd (sqlIsNotNull none) (sqlEq none (versionKey version)) = some false := rfl
    rw [hx, sqlOr_some]
    simp [accepts, h]
  refine ⟨hrange, ?_⟩
  intro hacc
  by_cases h : v.VersionNumber = ""
  · rw [hrange h, hacc]
  · obtain ⟨hl, hcol⟩ := hn h
    obtain ⟨kf, kt, hkf, hkt, _, _, h3⟩ := key_le_iff version v.VersionNumber ht hl hcol
    have heq : cmpVersion version v.VersionNumber = 0 := by
      simpa [accepts, h, equalVersion] using hacc
    have hk := h3 heq
    unfold keyCondition
    rw [hkf, hkt, hk]
    simp [sqlIsNotNull, sqlEq, sqlAnd_some, sqlOr]

theorem selectedByKey_eq (vendor product version : String) (r : Row) :
    selectedByKey vendor product version r =
      (selectedByName vendor product r &&
        keyCondition (versionKey version) r.version_start_key r.version_end_key
          r.version_number_key == some true) := rfl

/-- On faithful rows the two queries give the same result of `Match`. -/
theorem matchRows_fast_eq_full (version vendor product : String) (db : List Row)
    (ht : Spec.lossless version) (hdb : ∀ r ∈ db, Spec.faithfulRow version r) :
    matchRows version (queryVulnsMatch db vendor product version) =
      matchRows version (queryVulnsByRange db vendor product) := by
  simp only [matchRows_eq, queryVulnsMatch, queryVulnsByRange]
  congr 1
  induction db with
  | nil => rfl
  | cons r db ih =>
    have ih2 := ih (fun x hx => hdb x (List.mem_cons_of_mem _ hx))
    obtain ⟨k1, k2, k3, w1, w2, w3⟩ := hdb r (List.mem_cons_self _ _)
    have hk := keyCondition_of_wellKeyed version r.record ht w1 w2 w3
    rw [← k1, ← k2, ← k3] at hk
    by_cases hname : selectedByName vendor product r = true
    · by_cases hkey : keyCondition (versionKey version) r.version_start_key r.version_end_key
          r.version_number_key = some true
      · have hsel : selectedByKey vendor product version r = true := by
          rw [selectedByKey_eq, hname, hkey]; rfl
        simp only [List.filter_cons, hsel, hname, if_true, List.map_cons, ih2]
      · have hsel : selectedByKey vendor product version r = false := by
          rw [selectedByKey_eq, hname]
          simpa using hkey
        have hacc : accepts version r.record = false := by
          cases hc : accepts version r.record with
          | false => rfl
          | true => exact absurd (hk.2 hc) hkey
        simp only [List.filter_cons, hsel, hname, if_true, List.map_cons, hacc]
        simpa using ih2
    · have hname2 : selectedByName vendor product r = false := by simpa using hname
      have hsel : selectedByKey vendor product version r = false := by
        rw [selectedByKey_eq, hname2]; rfl
      simp only [List.filter_cons, hsel, hname2]
      simpa using ih2

/-- C13, as the code has it: for a target of the lossless domain and a stored
record each of whose non-empty version fields is of the lossless domain and has
the key of the target only when it is the same string, the query predicate
selects the record whenever the check of Match accepts it, and for a record with
empty version_number it selects the record exactly when the check accepts it; so
on a table of such rows Match gives the same result from the normalized-key
query as from the full query. -/
theorem fast_path_equiv (version : String) (v : VulnRecord) (id : Int)
    (ht : Spec.lossless version) (hs : Spec.wellKeyed version v.VersionStart)
    (he : Spec.wellKeyed version v.VersionEnd) (hn : Spec.wellKeyed version v.VersionNumber) :
    (v.VersionNumber = "" →
      (selectedByKey v.Vendor v.Product version (newRow id v) = true ↔
        accepts version v = true)) ∧
    (accepts version v = true →
      selectedByKey v.Vendor v.Product version (newRow id v) = true) ∧
    (∀ (db : List Row) (vendor product : String),
      (∀ r ∈ db, Spec.faithfulRow version r) →
      Match (storeOf db) vendor product version =
        Match (fallbackStore db) vendor product version) := by
  have hk := keyCondition_of_wellKeyed version v ht hs he hn
  have hsel : selectedByKey v.Vendor v.Product version (newRow id v) =
      (keyCondition (versionKey version) (versionKey v.VersionStart)
        (versionKey v.VersionEnd) (versionKey v.VersionNumber) == some true) := by
    simp [selectedByKey, newRow]
  refine ⟨?_, ?_, ?_⟩
  · intro h
    rw [hsel, hk.1 h]
    cases accepts version v <;> simp
  · intro h
    rw [hsel, hk.2 h]
    rfl
  · intro db vendor product hdb
    simp only [Match, storeOf, fallbackStore]
    rw [matchRows_fast_eq_full version vendor product db ht hdb]

/-- The record of the range from 14.0 to 14.9 against the target 14.5. -/
theorem fast_path_equiv_witness :
    Spec.lossless "14.5" ∧ Spec.wellKeyed "14.5" pgRecord.VersionStart ∧
    Spec.wellKeyed "14.5" pgRecord.VersionEnd ∧
    Spec.wellKeyed "14.5" pgRecord.VersionNumber ∧
    accepts "14.5" pgRecord = true ∧
    selectedByKey pgRecord.Vendor pgRecord.Product "14.5" (newRow 1 pgRecord) = true :=
  ⟨by decide, by decide, by decide, by decide, by decide,
    (fast_path_equiv "14.5" pgRecord 1 (by decide) (by decide) (by decide)
      (by decide)).2.1 (by decide)⟩

/-- C13 fails as stated: the record of the exact version 8.0.33 has no field with
the key of the target 5.7, is selected by the query predicate and is rejected by
the check; the record of the range from 1.2000 has no field with the key of the
target 2.0, is rejected by the query predicate and is accepted by the check. -/
theorem fast_path_equiv_counterexample :
    versionKey "8.0.33" ≠ versionKey "5.7" ∧
    selectedByKey "" "" "5.7" (newRow 1 (mkRecord "" "" "8.0.33")) = true ∧
    accepts "5.7" (mkRecord "" "" "8.0.33") = false ∧
    versionKey "1.2000" ≠ versionKey "2.0" ∧
    selectedByKey "" "" "2.0" (newRow 1 (mkRecord "1.2000" "" "")) = false ∧
    accepts "2.0" (mkRecord "1.2000" "" "") = true := by
  decide

/-! ## The CVE collector -/

theorem startsWith_iff (s sub : List Char) : startsWith s sub = true ↔ sub <+: s := by
  induction s generalizing sub with
  | nil => cases sub <;> simp [startsWith]
  | cons c s ih =>
    cases sub with
    | nil => simp [startsWith]
    | cons d sub =>
      simp only [startsWith, Bool.and_eq_true, beq_iff_eq, ih, List.cons_prefix_cons]
      constructor
      · rintro ⟨h1, h2⟩; exact ⟨h1.symm, h2⟩
      · rintro ⟨h1, h2⟩; exact ⟨h1.symm, h2⟩

theorem containsSub_iff (s sub : List Char) : containsSub s sub = true ↔ sub <:+: s := by
  induction s with
  | nil =>
    simp only [containsSub, startsWith_iff, List.prefix_nil, List.infix_nil]
  | cons c s ih =>
    simp only [containsSub, Bool.or_eq_true, startsWith_iff, ih, List.infix_cons_iff]

theorem toLower_empty (lower : Char → Char) : toLower lower "" = "" := rfl

theorem isDBProduct_empty (lower : Char → Char) : isDBProduct lower "" "" = false := by
  unfold isDBProduct
  rw [toLower_empty]
  rfl

/-- C15: isDBProduct(vendor, product) is true exactly when the pair in lower case
is (oracle, mysql), (oracle, database) or (postgresql, postgresql), or the vendor
in lower case is microsoft and the product in lower case contains sql; a string
with fewer than 5 fields between colons gives an empty vendor and product, which
are rejected. -/
theorem isDBProduct_iff (lower : Char → Char) (vendor product : String) :
    (isDBProduct lower vendor product = true ↔
      (toLower lower vendor = "oracle" ∧
        (toLower lower product = "mysql" ∨ toLower lower product = "database")) ∨
      (toLower lower vendor = "postgresql" ∧ toLower lower product = "postgresql") ∨
      (toLower lower vendor = "microsoft" ∧ "sql".data <:+: (toLower lower product).data)) ∧
    (∀ c : String, (splitColon c).length < 5 →
      parseCPE c = ("", "", "") ∧
      isDBProduct lower (parseCPE c).1 (parseCPE c).2.1 = false) := by
  constructor
  · rw [← containsSub_iff]
    have hsrv : toLower lower product = "sql_server" →
        containsSub (toLower lower product).data "sql".data = true := by
      intro h
      rw [h]
      decide
    unfold isDBProduct
    by_cases h1 : toLower lower vendor = "oracle"
    · by_cases h2 : toLower lower product = "mysql" <;>
        by_cases h3 : toLower lower product = "database" <;>
          simp [h1, h2, h3]
    · by_cases h4 : toLower lower vendor = "postgresql"
      · by_cases h5 : toLower lower product = "postgresql" <;> simp [h4, h5]
      · by_cases h6 : toLower lower vendor = "microsoft"
        · by_cases h7 : containsSub (toLower lower product).data "sql".data = true
          · simp only [h6, h7]
            simp
          · have h8 : ¬ toLower lower product = "sql_server" := fun h => h7 (hsrv h)
            simp only [h6, h7, h8]
            simp [h8]
        · simp [h1, h4, h6]
  · intro c hc
    have hp : parseCPE c = ("", "", "") := by
      unfold parseCPE
      simp only
      rw [if_neg (by omega)]
    rw [hp]
    exact ⟨rfl, isDBProduct_empty lower⟩

/-- The tracked pairs in mixed case, and a name with three fields. -/
theorem isDBProduct_iff_witness :
    isDBProduct asciiLower "Oracle" "MySQL" = true ∧
    isDBProduct asciiLower "Microsoft" "SQL_Server" = true ∧
    isDBProduct asciiLower "oracle" "java" = false ∧
    (splitColon "cpe:2.3:a").length < 5 ∧
    parseCPE "cpe:2.3:a" = ("", "", "") ∧
    isDBProduct asciiLower (parseCPE "cpe:2.3:a").1 (parseCPE "cpe:2.3:a").2.1 = false :=
  ⟨by decide, by decide, by decide, by decide,
    ((isDBProduct_iff asciiLower "" "").2 "cpe:2.3:a" (by decide)).1,
    ((isDBProduct_iff asciiLower "" "").2 "cpe:2.3:a" (by decide)).2⟩

theorem parseCPE_empty : parseCPE "" = ("", "", "") := by decide

/-- The records the collector builds for a vulnerable match of a tracked product. -/
theorem recordsForMatch_of_tracked (lower : Char → Char) (title : String → String)
    (cveID desc : String) (score : Option F64) (now : Int) (m : CPEMatch)
    (hv : m.vulnerable = true)
    (ht : isDBProduct lower (parseCPE m.criteria).1 (parseCPE m.criteria).2.1 = true) :
    ((parseCPE m.criteria).2.2 = "" →
      recordsForMatch lower title cveID desc score now m =
        [rangeRecord lower title cveID desc score now m]) ∧
    ((parseCPE m.criteria).2.2 ≠ "" →
      recordsForMatch lower title cveID desc score now m =
        [rangeRecord lower title cveID desc score now m,
          { rangeRecord lower title cveID desc score now m with
            VersionStart := "", VersionEnd := "",
            VersionNumber := (parseCPE m.criteria).2.2 }] ∧
      sameUniqueKey (rangeRecord lower title cveID desc score now m)
        { rangeRecord lower title cveID desc score now m with
          VersionStart := "", VersionEnd := "",
          VersionNumber := (parseCPE m.criteria).2.2 } = false) ∧
    (rangeRecord lower title cveID desc score now m).VersionNumber = "" ∧
    (rangeRecord lower title cveID desc score now m).VersionStart =
      firstNonEmpty m.versionStartIncluding m.versionStartExcluding ∧
    (rangeRecord lower title cveID desc score now m).VersionEnd =
      firstNonEmpty m.versionEndIncluding m.versionEndExcluding := by
  have hc : m.criteria ≠ "" := by
    intro h
    rw [h, parseCPE_empty, isDBProduct_empty] at ht
    exact absurd ht (by decide)
  have hc2 : (m.criteria == "") = false := by simpa using hc
  refine ⟨?_, ?_, rfl, rfl, rfl⟩
  · intro h
    simp [recordsForMatch, hv, hc2, ht, h]
  · intro h
    constructor
    · simp [recordsForMatch, hv, hc2, ht, h]
    · have h2 : ("" == (parseCPE m.criteria).2.2) = false := by
        simpa using fun e : "" = (parseCPE m.criteria).2.2 => h e.symm
      simp [sameUniqueKey, rangeRecord, h2]

/-- A match of a range of PostgreSQL with the wildcard version gives two records:
the range with version_number empty, then the version alone. -/
theorem recordsForMatch_rangeMatch :
    (recordsForMatch asciiLower id "CVE-DEMO" "" none 0 rangeMatch).map
      (fun r => (r.Vendor, r.Product, r.VersionStart, r.VersionEnd, r.VersionNumber)) =
      [("PostgreSQL", "PostgreSQL", "14.0", "14.10", ""),
        ("PostgreSQL", "PostgreSQL", "", "", "*")] := by
  decide

/-- C14 fails on the code: the match of the exact version 8.0.33 of MySQL is
vulnerable, names a tracked product and carries no start and no end, so the
claim gives it exactly one record; the collector passes two records to
InsertVuln and the table holds two rows.  The first is the record of the
unconditional insert, with version_start, version_end and version_number all
empty, and Match returns it for the version 5.7 of MySQL, through the
normalized-key query and through the fallback; with the record of the CPE
version alone Match returns nothing for 5.7. -/
theorem collect_version_only_match :
    exactMatch.vulnerable = true ∧
    isDBProduct asciiLower (parseCPE exactMatch.criteria).1
      (parseCPE exactMatch.criteria).2.1 = true ∧
    (parseCPE exactMatch.criteria).2.2 = "8.0.33" ∧
    firstNonEmpty exactMatch.versionStartIncluding exactMatch.versionStartExcluding = "" ∧
    firstNonEmpty exactMatch.versionEndIncluding exactMatch.versionEndExcluding = "" ∧
    (recordsForMatch asciiLower id "CVE-DEMO" "" none 0 exactMatch).map
      (fun r => (r.Vendor, r.Product, r.VersionStart, r.VersionEnd, r.VersionNumber)) =
      [("Oracle", "MySQL", "", "", ""), ("Oracle", "MySQL", "", "", "8.0.33")] ∧
    ((recordsForMatch asciiLower id "CVE-DEMO" "" none 0 exactMatch).foldl
      InsertVuln []).length = 2 ∧
    (Match (storeOf ((recordsForMatch asciiLower id "CVE-DEMO" "" none 0 exactMatch).foldl
        InsertVuln [])) "Oracle" "MySQL" "5.7").toOption.map
      (List.map (fun r => (r.VulnID, r.VersionStart, r.VersionEnd, r.VersionNumber))) =
      some [("CVE-DEMO", "", "", "")] ∧
    (Match (fallbackStore ((recordsForMatch asciiLower id "CVE-DEMO" "" none 0
        exactMatch).foldl InsertVuln [])) "Oracle" "MySQL" "5.7").toOption.map
      (List.map (fun r => (r.VulnID, r.VersionStart, r.VersionEnd, r.VersionNumber))) =
      some [("CVE-DEMO", "", "", "")] ∧
    Match (storeOf ((recordsForMatch asciiLower id "CVE-DEMO" "" none 0
        exactMatch).tail.foldl InsertVuln [])) "Oracle" "MySQL" "5.7" = .ok [] := by
  decide!

/-! ## The severity label -/

theorem scaled_cast (neg : Bool) (m : Nat) (e g : Int) (h : g ≤ e) :
    ((F64.scaled neg m e g : Int) : ℚ) * (2 : ℚ) ^ g = Spec.value (.fin neg m e) := by
  unfold F64.scaled
  show _ = (if neg then -1 else 1) * (m : ℚ) * (2 : ℚ) ^ e
  have h2 : ((e - g).toNat : Int) = e - g := Int.toNat_of_nonneg (by omega)
  have h3 : (2 : ℚ) ^ e = (2 : ℚ) ^ ((e - g).toNat) * (2 : ℚ) ^ g := by
    rw [← zpow_natCast, h2, ← zpow_add₀ (by norm_num : (2 : ℚ) ≠ 0)]
    congr 1
    omega
  rw [h3]
  cases neg <;> (push_cast; simp; ring)

/-- Go `<=` on finite numbers is the order of their values. -/
theorem le_fin_iff (a : Bool) (m : Nat) (e : Int) (b : Bool) (n : Nat) (f : Int) :
    F64.le (.fin a m e) (.fin b n f) = true ↔
      Spec.value (.fin a m e) ≤ Spec.value (.fin b n f) := by
  rw [← scaled_cast a m e (min e f) (min_le_left _ _),
    ← scaled_cast b n f (min e f) (min_le_right _ _)]
  have hp : (0 : ℚ) < (2 : ℚ) ^ (min e f) := zpow_pos (by norm_num) _
  rw [mul_le_mul_right hp, Int.cast_le]
  simp [F64.le]

theorem ge_ofNat_iff (neg : Bool) (m : Nat) (e : Int) (c cm : Nat) (ce : Int)
    (hc : F64.ofNat c = .fin false cm ce) (hv : Spec.value (.fin false cm ce) = c) :
    F64.ge (.fin neg m e) (F64.ofNat c) = true ↔ (c : ℚ) ≤ Spec.value (.fin neg m e) := by
  unfold F64.ge
  rw [hc, le_fin_iff, hv]

theorem ge_nine_iff (neg : Bool) (m : Nat) (e : Int) :
    F64.ge (.fin neg m e) (F64.ofNat 9) = true ↔ 9 ≤ Spec.value (.fin neg m e) := by
  have h := ge_ofNat_iff neg m e 9 (9 * 2 ^ 49) (-49) (by decide) (by norm_num [Spec.value])
  simpa using h

theorem ge_seven_iff (neg : Bool) (m : Nat) (e : Int) :
    F64.ge (.fin neg m e) (F64.ofNat 7) = true ↔ 7 ≤ Spec.value (.fin neg m e) := by
  have h := ge_ofNat_iff neg m e 7 (7 * 2 ^ 50) (-50) (by decide) (by norm_num [Spec.value])
  simpa using h

theorem ge_four_iff (neg : Bool) (m : Nat) (e : Int) :
    F64.ge (.fin neg m e) (F64.ofNat 4) = true ↔ 4 ≤ Spec.value (.fin neg m e) := by
  have h := ge_ofNat_iff neg m e 4 (2 ^ 52) (-50) (by decide) (by norm_num [Spec.value])
  simpa using h

/-- C16: the severity label is UNKNOWN for an absent score; for a present finite
score of value s it is CRITICAL if s is at least 9, HIGH if s is at least 7 and
below 9, MEDIUM if s is at least 4 and below 7, and LOW if s is below 4; the
label is always one of CRITICAL, HIGH, MEDIUM, LOW and UNKNOWN. -/
theorem severityOf_cases (score : Option F64) :
    (score = none → severityOf score = "UNKNOWN") ∧
    (∀ (neg : Bool) (m : Nat) (e : Int), score = some (.fin neg m e) →
      (9 ≤ Spec.value (.fin neg m e) → severityOf score = "CRITICAL") ∧
      (7 ≤ Spec.value (.fin neg m e) → Spec.value (.fin neg m e) < 9 →
        severityOf score = "HIGH") ∧
      (4 ≤ Spec.value (.fin neg m e) → Spec.value (.fin neg m e) < 7 →
        severityOf score = "MEDIUM") ∧
      (Spec.value (.fin neg m e) < 4 → severityOf score = "LOW")) ∧
    (severityOf score = "CRITICAL" ∨ severityOf score = "HIGH" ∨
      severityOf score = "MEDIUM" ∨ severityOf score = "LOW" ∨
      severityOf score = "UNKNOWN") ∧
    severityOf (some (.inf false)) = "CRITICAL" ∧ severityOf (some (.inf true)) = "LOW" ∧
    severityOf (some .nan) = "LOW" := by
  refine ⟨?_, ?_, ?_, by decide, by decide, by decide⟩
  · intro h
    rw [h]
    rfl
  · intro neg m e h
    rw [h]
    have h9 := ge_nine_iff neg m e
    have h7 := ge_seven_iff neg m e
    have h4 := ge_four_iff neg m e
    refine ⟨?_, ?_, ?_, ?_⟩
    · intro hv
      simp [severityOf, h9.2 hv]
    · intro hv1 hv2
      have n9 : F64.ge (.fin neg m e) (F64.ofNat 9) = false := by
        rw [← Bool.not_eq_true, h9]; linarith
      simp [severityOf, n9, h7.2 hv1]
    · intro hv1 hv2
      have n9 : F64.ge (.fin neg m e) (F64.ofNat 9) = false := by
        rw [← Bool.not_eq_true, h9]; linarith
      have n7 : F64.ge (.fin neg m e) (F64.ofNat 7) = false := by
        rw [← Bool.not_eq_true, h7]; linarith
      simp [severityOf, n9, n7, h4.2 hv1]
    · intro hv
      have n9 : F64.ge (.fin neg m e) (F64.ofNat 9) = false := by
        rw [← Bool.not_eq_true, h9]; linarith
      have n7 : F64.ge (.fin neg m e) (F64.ofNat 7) = false := by
        rw [← Bool.not_eq_true, h7]; linarith
      have n4 : F64.ge (.fin neg m e) (F64.ofNat 4) = false := by
        rw [← Bool.not_eq_true, h4]; linarith
      simp [severityOf, n9, n7, n4]
  · cases score with
    | none => simp [severityOf]
    | some s =>
      simp only [severityOf]
      split
      · simp
      · split
        · simp
        · split <;> simp

/-- The score 7.5 has the label HIGH. -/
theorem severityOf_cases_witness :
    F64.lit 75 1 = .fin false (15 * 2 ^ 49) (-50) ∧
    Spec.value (.fin false (15 * 2 ^ 49) (-50)) = 15 / 2 ∧
    severityOf (some (.fin false (15 * 2 ^ 49) (-50))) = "HIGH" :=
  ⟨by decide, by norm_num [Spec.value],
    ((severityOf_cases (some (.fin false (15 * 2 ^ 49) (-50)))).2.1 false (15 * 2 ^ 49) (-50)
      rfl).2.1 (by norm_num [Spec.value]) (by norm_num [Spec.value])⟩

/-! ## Scenarios -/

/-- The rows of the store holding the record of the scenario are delivered by the
normalized-key query and matched against 14.5. -/
theorem match_result_witness :
    (storeOf (InsertVuln [] pgRecord)).QueryVulnsMatch "PostgreSQL" "PostgreSQL" "14.5" =
      .ok [{ pgRecord with ID := 1 }] ∧
    Match (storeOf (InsertVuln [] pgRecord)) "PostgreSQL" "PostgreSQL" "14.5" =
      .ok (([{ pgRecord with ID := 1 }].filter (accepts "14.5")).map withFinalScore) :=
  ⟨by decide,
    (match_result (storeOf (InsertVuln [] pgRecord)) "PostgreSQL" "PostgreSQL" "14.5"
      [{ pgRecord with ID := 1 }] (Or.inl (by decide))).1⟩

/-- A store whose first query fails answers from the full query, and a store whose
two queries fail gives the error of the full query. -/
theorem match_error_iff_witness :
    Match (fallbackStore (InsertVuln [] pgRecord)) "PostgreSQL" "PostgreSQL" "14.5" =
      .ok (matchRows "14.5" [{ pgRecord with ID := 1 }]) ∧
    Match brokenStore "PostgreSQL" "PostgreSQL" "14.5" = .error "full scan failed" :=
  ⟨(match_error_iff (fallbackStore (InsertVuln [] pgRecord)) "PostgreSQL" "PostgreSQL"
      "14.5").2.2 "fast path failed" [{ pgRecord with ID := 1 }] rfl (by decide),
    by decide⟩

/-- C17: with a store holding the single record of vendor PostgreSQL, product
PostgreSQL, version_start 14.0, version_end 14.9, empty version_number, primary
score 7.5 and the severity derived from 7.5, Match at the version 14.5 returns
exactly one result, of severity HIGH and FinalScore 7.5, and Match at the version
15.0 returns no result; so it is when the normalized-key query fails. -/
theorem end_to_end :
    severityOf (some (F64.lit 75 1)) = "HIGH" ∧
    Match (storeOf (InsertVuln [] pgRecord)) "PostgreSQL" "PostgreSQL" "14.5" =
      .ok [{ pgRecord with ID := 1, Severity := "HIGH", FinalScore := some (F64.lit 75 1) }] ∧
    Match (storeOf (InsertVuln [] pgRecord)) "PostgreSQL" "PostgreSQL" "15.0" = .ok [] ∧
    Match (fallbackStore (InsertVuln [] pgRecord)) "PostgreSQL" "PostgreSQL" "14.5" =
      .ok [{ pgRecord with ID := 1, Severity := "HIGH", FinalScore := some (F64.lit 75 1) }] ∧
    Match (fallbackStore (InsertVuln [] pgRecord)) "PostgreSQL" "PostgreSQL" "15.0" =
      .ok [] := by
  decide!

/-- C19 fails on the code: on an empty store the scan of PostgreSQL 15.0 finds
nothing and SaveScanResult writes the placeholder; the second Match with the same
arguments returns that placeholder as a match.  On the store of the scenario the
scan of 14.5 finds one record, and the second Match returns two: the record and
the copy that SaveScanResult wrote with the source scan. -/
theorem scan_not_repeatable :
    (scanOnce [] pgMeta "15.0" 1700000000).1 = .ok [] ∧
    (Match (storeOf (scanOnce [] pgMeta "15.0" 1700000000).2) "PostgreSQL" "PostgreSQL"
        "15.0").toOption.map
      (List.map (fun r => (r.Source, r.VulnID, r.VulnName, r.VersionNumber))) =
      some [("scan", "SCAN-1700000000", "No matching vulnerabilities", "15.0")] ∧
    ((scanOnce (InsertVuln [] pgRecord) pgMeta "14.5" 1700000000).1).toOption.map
      (List.map (fun r => (r.Source, r.VulnID, r.VersionNumber))) =
      some [("CVE", "CVE-DEMO", "")] ∧
    (Match (storeOf (scanOnce (InsertVuln [] pgRecord) pgMeta "14.5" 1700000000).2)
        "PostgreSQL" "PostgreSQL" "14.5").toOption.map
      (List.map (fun r => (r.Source, r.VulnID, r.VersionNumber))) =
      some [("CVE", "CVE-DEMO", ""), ("scan", "CVE-DEMO", "14.5")] := by
  decide!

/-! ## `cmpVersion` as a preorder -/

theorem cmpLoop_range (ta tb : List Nat) (n i : Nat) :
    cmpLoop ta tb n i = none ∨ cmpLoop ta tb n i = some 1 ∨ cmpLoop ta tb n i = some (-1) := by
  induction n generalizing i with
  | zero => exact Or.inl rfl
  | succ n ih =>
    simp only [cmpLoop]
    split
    · exact Or.inr (Or.inl rfl)
    · split
      · exact Or.inr (Or.inr rfl)
      · exact ih (i + 1)

theorem cmpLoop_beyond (ta tb : List Nat) (k i : Nat) (ha : ta.length ≤ i)
    (hb : tb.length ≤ i) : cmpLoop ta tb k i = none := by
  induction k generalizing i with
  | zero => rfl
  | succ k ih =>
    simp only [cmpLoop]
    rw [List.getD_eq_default _ _ ha, List.getD_eq_default _ _ hb]
    simp only [gt_iff_lt, lt_self_iff_false, if_false]
    exact ih (i + 1) (by omega) (by omega)

theorem cmpLoop_extend (ta tb : List Nat) (n k i : Nat) (ha : ta.length ≤ i + n)
    (hb : tb.length ≤ i + n) : cmpLoop ta tb (n + k) i = cmpLoop ta tb n i := by
  induction n generalizing i with
  | zero =>
    rw [Nat.zero_add]
    exact cmpLoop_beyond ta tb k i (by omega) (by omega)
  | succ n ih =>
    have e : n + 1 + k = (n + k) + 1 := by omega
    rw [e]
    simp only [cmpLoop]
    rw [ih (i + 1) (by omega) (by omega)]

/-- The loop run for any number of rounds that covers the two token lists. -/
theorem cmpLoop_covering (ta tb : List Nat) (N : Nat) (h : max ta.length tb.length ≤ N) :
    cmpLoop ta tb N 0 = cmpLoop ta tb (max ta.length tb.length) 0 := by
  obtain ⟨k, rfl⟩ := Nat.exists_eq_add_of_le h
  exact cmpLoop_extend ta tb _ k 0 (by simp) (by simp)

/-- The loop composes: when it does not put `ta` above `tb` nor `tb` above `tc`, it
does not put `ta` above `tc`, and it finds `ta` and `tc` equal only when it finds
both pairs equal. -/
theorem cmpLoop_trans (ta tb tc : List Nat) (n i : Nat)
    (h1 : (cmpLoop ta tb n i).getD 0 ≤ 0) (h2 : (cmpLoop tb tc n i).getD 0 ≤ 0) :
    (cmpLoop ta tc n i).getD 0 ≤ 0 ∧
    (cmpLoop ta tc n i = none → cmpLoop ta tb n i = none ∧ cmpLoop tb tc n i = none) := by
  induction n generalizing i with
  | zero => simp [cmpLoop]
  | succ n ih =>
    simp only [cmpLoop] at h1 h2 ⊢
    generalize ta.getD i 0 = x at h1 h2 ⊢
    generalize tb.getD i 0 = y at h1 h2 ⊢
    generalize tc.getD i 0 = z at h1 h2 ⊢
    rcases lt_trichotomy x y with hxy | hxy | hxy
    · have n1 : ¬ x > y := by omega
      rcases lt_trichotomy y z with hyz | hyz | hyz
      · have n2 : ¬ x > z := by omega
        have n3 : x < z := by omega
        simp [n2, n3]
      · have n2 : ¬ x > z := by omega
        have n3 : x < z := by omega
        simp [n2, n3]
      · have : y > z := hyz
        simp [this] at h2
    · subst hxy
      rcases lt_trichotomy x z with hyz | hyz | hyz
      · have n2 : ¬ x > z := by omega
        simp [n2, hyz]
      · subst hyz
        simp only [gt_iff_lt, lt_self_iff_false, if_false] at h1 h2 ⊢
        exact ih (i + 1) h1 h2
      · have : x > z := hyz
        simp [this] at h2
    · have : x > y := hxy
      simp [this] at h1

theorem cmpVersion_eq_loop (a b : String) :
    cmpVersion a b =
      match cmpLoop (tokenizeVersion a.data) (tokenizeVersion b.data)
          (max (tokenizeVersion a.data).length (tokenizeVersion b.data).length) 0 with
      | some r => r
      | none =>
        if byteLen (trimSpace a.data) > byteLen (trimSpace b.data) then 1
        else if byteLen (trimSpace a.data) < byteLen (trimSpace b.data) then -1
        else 0 := by
  simp only [cmpVersion, cmpVersionL, tokenizeVersion_trimSpace]

theorem cmpVersion_neg (a b : String) : cmpVersion a b = -cmpVersion b a := by
  rw [cmpVersion_eq_loop a b, cmpVersion_eq_loop b a,
    cmpLoop_swap (tokenizeVersion a.data) (tokenizeVersion b.data),
    max_comm (tokenizeVersion b.data).length]
  cases cmpLoop (tokenizeVersion a.data) (tokenizeVersion b.data)
      (max (tokenizeVersion a.data).length (tokenizeVersion b.data).length) 0 with
  | some r => simp
  | none =>
    simp only [Option.map_none']
    split_ifs <;> omega

/-- C18: cmpVersion is a total preorder: cmpVersion(a, a) is 0, cmpVersion(a, b) is
the opposite of cmpVersion(b, a), and cmpVersion(a, c) is at most 0 when
cmpVersion(a, b) and cmpVersion(b, c) are. -/
theorem cmpVersion_preorder (a b c : String) :
    cmpVersion a a = 0 ∧ cmpVersion a b = -cmpVersion b a ∧
    (cmpVersion a b ≤ 0 → cmpVersion b c ≤ 0 → cmpVersion a c ≤ 0) := by
  refine ⟨cmpVersion_self a, cmpVersion_neg a b, ?_⟩
  intro hab hbc
  rw [cmpVersion_eq_loop] at hab hbc ⊢
  generalize hta : tokenizeVersion a.data = ta at hab hbc ⊢
  generalize htb : tokenizeVersion b.data = tb at hab hbc ⊢
  generalize htc : tokenizeVersion c.data = tc at hab hbc ⊢
  generalize byteLen (trimSpace a.data) = la at hab hbc ⊢
  generalize byteLen (trimSpace b.data) = lb at hab hbc ⊢
  generalize byteLen (trimSpace c.data) = lc at hab hbc ⊢
  have hN1 : max ta.length tb.length ≤ max (max ta.length tb.length) tc.length :=
    le_max_left _ _
  have hN2 : max tb.length tc.length ≤ max (max ta.length tb.length) tc.length := by
    simp only [max_le_iff, le_max_iff]; omega
  have hN3 : max ta.length tc.length ≤ max (max ta.length tb.length) tc.length := by
    simp only [max_le_iff, le_max_iff]; omega
  rw [← cmpLoop_covering ta tb _ hN1] at hab
  rw [← cmpLoop_covering tb tc _ hN2] at hbc
  rw [← cmpLoop_covering ta tc _ hN3]
  generalize max (max ta.length tb.length) tc.length = N at hab hbc ⊢
  have key := cmpLoop_trans ta tb tc N 0
  rcases cmpLoop_range ta tb N 0 with e1 | e1 | e1 <;>
  rcases cmpLoop_range tb tc N 0 with e2 | e2 | e2 <;>
  rcases cmpLoop_range ta tc N 0 with e3 | e3 | e3 <;>
  simp only [e1, e2, e3] at hab hbc key ⊢
  all_goals simp at hab hbc key ⊢
  all_goals (try split_ifs at hab hbc ⊢)
  all_goals omega

/-- The strings 8.0, 8.0.9 and 8.0.33 are in ascending order. -/
theorem cmpVersion_preorder_witness :
    cmpVersion "8.0" "8.0.9" ≤ 0 ∧ cmpVersion "8.0.9" "8.0.33" ≤ 0 ∧
    cmpVersion "8.0" "8.0.33" ≤ 0 ∧ cmpVersion "8.0" "8.0.9" = -cmpVersion "8.0.9" "8.0" :=
  ⟨by decide, by decide,
    (cmpVersion_preorder "8.0" "8.0.9" "8.0.33").2.2 (by decide) (by decide),
    (cmpVersion_preorder "8.0" "8.0.9" "8.0.33").2.1⟩

end Matcher
